import Mathlib

/-!
Verification of the probeye inference core (pyro/torch solver and forward-model
base class) against its natural-language specification.

The definitions below are a shallow embedding of
`src/probeye/inference/torch_/solver.py` and
`src/probeye/definition/forward_model.py`:

* the prior-dependency resolution loop of `run_pyro_solver` (lines 61-91),
* the flattening/reconstruction pair of `Autograd.forward` and
  `ForwardModelBase.__call__`,
* the gradient rule of `Autograd.backward`,
* the finite-difference machinery of `ForwardModelBase.jacobian` and
  `ForwardModelBase.jacobian_dict_to_array`,
* the log-likelihood accumulation of `loglike`,
* and the mutation discipline of `run_pyro_solver` and
  `ForwardModelBase.jacobian`, modelled with an explicit store.

Machine floats are modelled by rationals; exact arithmetic mirrors every
operation these code paths perform (add, sub, mul, div).  The one square root
the code takes, `np.sqrt(np.finfo(np.float32).eps)`, is a compile-time
constant of the source and is embedded as the exact rational value of the
IEEE-754 double that numpy produces for it.
-/

namespace Probeye

/-! ### Finite-difference step size (`ForwardModelBase.jacobian`, lines 162-175)

`eps = np.finfo(np.float32).eps` is `2 ^ (-23)`, and for an input value `x`
the central-difference step is `h = np.sqrt(eps) * x + np.sqrt(eps)`. -/

/-- The IEEE-754 double value of `np.sqrt(np.finfo(np.float32).eps)`, i.e. the
correctly rounded square root of `2 ^ (-23)`, as an exact rational. -/
def sqrtEps32 : ℚ := 6369051672525773 / 18446744073709551616

/-- The finite-difference step size `h = np.sqrt(eps) * x + np.sqrt(eps)`
computed by `ForwardModelBase.jacobian` for the input value `x`
(forward_model source line 172). -/
def fdStep (x : ℚ) : ℚ := sqrtEps32 * x + sqrtEps32

theorem sqrtEps32_pos : 0 < sqrtEps32 := by norm_num [sqrtEps32]

/-! ### The prior-dependency resolution loop (`run_pyro_solver`, lines 61-91)

The Python code keeps a `dict` called `dependency_dict` mapping each latent
parameter name to the list of latent hyperparameters of its prior, and then
reorders it in place by repeated swapping until a full scan finds no
out-of-order dependency, raising a `RuntimeError` when it meets a pair of
parameters whose dependency lists contain each other.

A Python 3.7+ `dict` is insertion ordered, so it is embedded as a list of
`(key, dependency list)` pairs with pairwise distinct keys. -/

/-- The state of `dependency_dict`: an insertion-ordered dictionary from
latent parameter names to the latent hyperparameters of their priors. -/
abbrev DepMap := List (String × List String)

/-- `[*dependency_dict.keys()]`. -/
def keysOf (L : DepMap) : List String := L.map Prod.fst

/-- `dependency_dict[k]`: dictionary lookup (keys are unique). -/
def depsOf (L : DepMap) (k : String) : List String :=
  match L.find? (fun e => e.1 = k) with
  | some e => e.2
  | none => []

/-- `[*dependency_dict.keys()].index(k)`: position of the first occurrence of
key `k` (the length of the list when absent; Python would raise there, but
the solver only looks up dependencies that are themselves latent keys). -/
def idxOfKey (L : DepMap) (k : String) : Nat := (keysOf L).indexOf k

/-- `tuples[idx], tuples[idx_dependency] = tuples[idx_dependency], tuples[idx]`:
exchange the entries at two positions (identity when out of range). -/
def swapAt (L : DepMap) (i j : Nat) : DepMap :=
  match L.get? i, L.get? j with
  | some a, some b => (L.set i b).set j a
  | _, _ => L

/-- The inner `for dependency in dependency_dict[key_idx]` loop of the
resolution pass: `key` is `key_idx`, `ds` the (fixed) dependency list being
iterated, `idx` the scanned position, `c` the `consistent` flag.  For every
dependency it first performs the circular-dependency check
(`if key_idx in dependency_dict[dependency]: raise RuntimeError(...)`, the
error carrying the offending pair), then swaps the entries at `idx` and the
dependency's position when the latter is larger. -/
def procDeps (idx : Nat) (key : String) :
    List String → DepMap → Bool → Except (String × String) (DepMap × Bool)
  | [], L, c => .ok (L, c)
  | d :: ds, L, c =>
    if key ∈ depsOf L d then
      .error (key, d)
    else
      let j := idxOfKey L d
      if idx < j then
        procDeps idx key ds (swapAt L idx j) false
      else
        procDeps idx key ds L c

/-- The outer `for idx in idx_latent_dependencies` loop of one pass:
`key_idx = [*dependency_dict.keys()][idx]` is fetched from the current state
of the dictionary, then its dependency list is processed. -/
def procIdxs : List Nat → DepMap → Bool → Except (String × String) (DepMap × Bool)
  | [], L, c => .ok (L, c)
  | idx :: rest, L, c =>
    let key := (keysOf L).getD idx ""
    match procDeps idx key (depsOf L key) L c with
    | .error e => .error e
    | .ok (L₁, c₁) => procIdxs rest L₁ c₁

/-- `idx_latent_dependencies = [i for i, v in enumerate(dependency_dict.values())
if len(v) > 0]`, computed at the start of a pass. -/
def nonEmptyIdxs (L : DepMap) : List Nat :=
  (List.range L.length).filter (fun i => ((L.get? i).map Prod.snd).getD [] ≠ [])

/-- One iteration of the `while not consistent` loop: set `consistent = True`,
compute `idx_latent_dependencies`, and run the scan.  Returns the updated
dictionary together with the final value of `consistent`, or the offending
pair of the circular-dependency error. -/
def onePass (L : DepMap) : Except (String × String) (DepMap × Bool) :=
  procIdxs (nonEmptyIdxs L) L true

/-- The `while not consistent` loop itself, with explicit fuel: `.ok (some L)`
means the loop exited with a consistent ordering `L`, `.ok none` means the
fuel ran out with the loop still going, `.error (a, b)` is the
`RuntimeError(f"Found circular dependency between {a} and {b}!")`. -/
def resolveLoop : Nat → DepMap → Except (String × String) (Option DepMap)
  | 0, _ => .ok none
  | n + 1, L =>
    match onePass L with
    | .error e => .error e
    | .ok (L₁, true) => .ok (some L₁)
    | .ok (L₁, false) => resolveLoop n L₁

/-- Construction of `dependency_dict` (solver lines 61-67): every latent
parameter maps to those hyperparameters of its prior that are themselves
latent.  `latent` is `problem.parameters.latent_prms` and `hyper p` is
`problem.parameters[p].prior.hyperparameters`. -/
def buildDependencyDict (latent : List String) (hyper : String → List String) :
    DepMap :=
  latent.map (fun p => (p, (hyper p).filter (fun q => q ∈ latent)))

/-- The key stored at position `q` of the dictionary (`""` out of range). -/
def keyAt (L : DepMap) (q : Nat) : String := (keysOf L).getD q ""

/-- Position `q` is in order: every dependency of the entry at `q` sits at a
strictly earlier position. -/
def InOrderAt (L : DepMap) (q : Nat) : Prop :=
  ∀ d ∈ depsOf L (keyAt L q), idxOfKey L d < q

/-! #### Elementary facts about `swapAt` -/

theorem swapAt_length (L : DepMap) (i j : Nat) :
    (swapAt L i j).length = L.length := by
  unfold swapAt
  cases hi : L.get? i <;> cases hj : L.get? j <;> simp

theorem get_cons_set_perm {α : Type} :
    ∀ (t : List α) (j : Nat) (hj : j < t.length) (a : α),
      List.Perm (t.get ⟨j, hj⟩ :: t.set j a) (a :: t) := by
  intro t
  induction t with
  | nil => intro j hj a; simp at hj
  | cons x s ih =>
    intro j hj a
    cases j with
    | zero => simpa using List.Perm.swap a x s
    | succ m =>
      have hm : m < s.length := by simpa using hj
      have h1 : (x :: s).get ⟨m + 1, hj⟩ :: (x :: s).set (m + 1) a
          = s.get ⟨m, hm⟩ :: x :: s.set m a := by simp
      rw [h1]
      exact (List.Perm.swap x _ _).trans
        ((List.Perm.cons x (ih m hm a)).trans (List.Perm.swap a x s))

theorem set_set_get_perm {α : Type} :
    ∀ (L : List α) (i j : Nat) (hi : i < L.length) (hj : j < L.length),
      List.Perm ((L.set i (L.get ⟨j, hj⟩)).set j (L.get ⟨i, hi⟩)) L := by
  intro L
  induction L with
  | nil => intro i j hi hj; simp at hi
  | cons x t ih =>
    intro i j hi hj
    cases i with
    | zero =>
      cases j with
      | zero => simp
      | succ m =>
        have hm : m < t.length := by simpa using hj
        have : ((x :: t).set 0 ((x :: t).get ⟨m + 1, hj⟩)).set (m + 1)
            ((x :: t).get ⟨0, hi⟩) = t.get ⟨m, hm⟩ :: t.set m x := by simp
        rw [this]
        exact get_cons_set_perm t m hm x
    | succ n =>
      have hn : n < t.length := by simpa using hi
      cases j with
      | zero =>
        have : ((x :: t).set (n + 1) ((x :: t).get ⟨0, hj⟩)).set 0
            ((x :: t).get ⟨n + 1, hi⟩) = t.get ⟨n, hn⟩ :: t.set n x := by simp
        rw [this]
        exact get_cons_set_perm t n hn x
      | succ m =>
        have hm : m < t.length := by simpa using hj
        have : ((x :: t).set (n + 1) ((x :: t).get ⟨m + 1, hj⟩)).set (m + 1)
            ((x :: t).get ⟨n + 1, hi⟩)
            = x :: ((t.set n (t.get ⟨m, hm⟩)).set m (t.get ⟨n, hn⟩)) := by simp
        rw [this]
        exact List.Perm.cons x (ih n m hn hm)

theorem swapAt_perm (L : DepMap) (i j : Nat) : List.Perm (swapAt L i j) L := by
  unfold swapAt
  cases hi : L.get? i with
  | none => simp
  | some a =>
    cases hj : L.get? j with
    | none => simp
    | some b =>
      have hi' : i < L.length := by
        by_contra h
        rw [List.get?_eq_none.mpr (Nat.le_of_not_lt h)] at hi
        exact Option.noConfusion hi
      have hj' : j < L.length := by
        by_contra h
        rw [List.get?_eq_none.mpr (Nat.le_of_not_lt h)] at hj
        exact Option.noConfusion hj
      have ha : L.get ⟨i, hi'⟩ = a := by
        have := List.get?_eq_get hi'
        rw [hi] at this
        exact (Option.some.injEq _ _).mp this.symm
      have hb : L.get ⟨j, hj'⟩ = b := by
        have := List.get?_eq_get hj'
        rw [hj] at this
        exact (Option.some.injEq _ _).mp this.symm
      rw [← ha, ← hb]
      exact set_set_get_perm L i j hi' hj'

theorem swapAt_get?_of_ne (L : DepMap) {i j q : Nat} (hqi : q ≠ i) (hqj : q ≠ j) :
    (swapAt L i j).get? q = L.get? q := by
  unfold swapAt
  cases hi : L.get? i with
  | none => rfl
  | some a =>
    cases hj : L.get? j with
    | none => rfl
    | some b =>
      simp only [List.get?_eq_getElem?] at *
      rw [List.getElem?_set_ne (Ne.symm hqj), List.getElem?_set_ne (Ne.symm hqi)]

theorem swapAt_get?_fst (L : DepMap) {i j : Nat} (hi : i < L.length)
    (hj : j < L.length) : (swapAt L i j).get? i = L.get? j := by
  unfold swapAt
  rcases hgi : L.get? i with _ | a
  · rw [List.get?_eq_none] at hgi; omega
  rcases hgj : L.get? j with _ | b
  · rw [List.get?_eq_none] at hgj; omega
  simp only [List.get?_eq_getElem?] at *
  rcases eq_or_ne i j with rfl | hij
  · rw [List.getElem?_set_self (by simpa using hi)]
    rw [hgi] at hgj
    exact hgj
  · rw [List.getElem?_set_ne (Ne.symm hij), List.getElem?_set_self hi]

theorem swapAt_get?_snd (L : DepMap) {i j : Nat} (hi : i < L.length)
    (hj : j < L.length) : (swapAt L i j).get? j = L.get? i := by
  unfold swapAt
  rcases hgi : L.get? i with _ | a
  · rw [List.get?_eq_none] at hgi; omega
  rcases hgj : L.get? j with _ | b
  · rw [List.get?_eq_none] at hgj; omega
  simp only [List.get?_eq_getElem?] at *
  rw [List.getElem?_set_self (by simpa using hj)]

/-! #### Keys, lookups and positions -/

theorem keysOf_length (L : DepMap) : (keysOf L).length = L.length := by
  simp [keysOf]

theorem keysOf_get? (L : DepMap) (q : Nat) :
    (keysOf L).get? q = (L.get? q).map Prod.fst := by
  simp [keysOf]

theorem keysOf_perm {L L' : DepMap} (h : List.Perm L L') :
    List.Perm (keysOf L) (keysOf L') := h.map Prod.fst

/-- With pairwise-distinct keys, two entries with the same key are equal. -/
theorem entry_unique {L : DepMap} (nd : (keysOf L).Nodup) {e₁ e₂ : String × List String}
    (h₁ : e₁ ∈ L) (h₂ : e₂ ∈ L) (hk : e₁.1 = e₂.1) : e₁ = e₂ := by
  induction L with
  | nil => cases h₁
  | cons a t ih =>
    have nda : a.1 ∉ keysOf t := by
      have : (keysOf (a :: t)) = a.1 :: keysOf t := rfl
      rw [this] at nd
      exact (List.nodup_cons.mp nd).1
    have ndt : (keysOf t).Nodup := by
      have : (keysOf (a :: t)) = a.1 :: keysOf t := rfl
      rw [this] at nd
      exact (List.nodup_cons.mp nd).2
    rcases List.mem_cons.mp h₁ with rfl | h₁t
    · rcases List.mem_cons.mp h₂ with rfl | h₂t
      · rfl
      · exact absurd (hk ▸ List.mem_map_of_mem Prod.fst h₂t) nda
    · rcases List.mem_cons.mp h₂ with rfl | h₂t
      · exact absurd (hk ▸ List.mem_map_of_mem Prod.fst h₁t) nda
      · exact ih ndt h₁t h₂t

theorem find?_key_eq {L : DepMap} {k : String} {e : String × List String}
    (h : L.find? (fun e => e.1 = k) = some e) : e.1 = k := by
  have := List.find?_some h
  exact of_decide_eq_true this

theorem depsOf_eq_of_mem {L : DepMap} (nd : (keysOf L).Nodup)
    {e : String × List String} (he : e ∈ L) : depsOf L e.1 = e.2 := by
  unfold depsOf
  cases hf : L.find? (fun x => x.1 = e.1) with
  | none =>
    rw [List.find?_eq_none] at hf
    have := hf e he
    simp at this
  | some e' =>
    have h1 : e'.1 = e.1 := find?_key_eq hf
    have h2 : e' ∈ L := List.mem_of_find?_eq_some hf
    rw [entry_unique nd h2 he h1]

theorem depsOf_eq_of_perm {L L' : DepMap} (h : List.Perm L L')
    (nd : (keysOf L).Nodup) (k : String) : depsOf L k = depsOf L' k := by
  by_cases hk : k ∈ keysOf L
  · rcases List.mem_map.mp hk with ⟨e, he, hke⟩
    have he' : e ∈ L' := h.mem_iff.mp he
    have nd' : (keysOf L').Nodup := (keysOf_perm h).nodup nd
    rw [← hke, depsOf_eq_of_mem nd he, depsOf_eq_of_mem nd' he']
  · have hk' : k ∉ keysOf L' := fun hx => hk ((keysOf_perm h).mem_iff.mpr hx)
    unfold depsOf
    have f1 : L.find? (fun e => e.1 = k) = none := by
      rw [List.find?_eq_none]
      intro e he hd
      exact hk (List.mem_map.mpr ⟨e, he, of_decide_eq_true hd⟩)
    have f2 : L'.find? (fun e => e.1 = k) = none := by
      rw [List.find?_eq_none]
      intro e he hd
      exact hk' (List.mem_map.mpr ⟨e, he, of_decide_eq_true hd⟩)
    rw [f1, f2]

theorem idxOfKey_lt_length_iff (L : DepMap) (k : String) :
    idxOfKey L k < L.length ↔ k ∈ keysOf L := by
  unfold idxOfKey
  rw [← keysOf_length L]
  exact List.indexOf_lt_length

theorem keyAt_idxOfKey {L : DepMap} {k : String} (h : k ∈ keysOf L) :
    keyAt L (idxOfKey L k) = k := by
  unfold keyAt idxOfKey
  rw [List.getD_eq_get?, List.indexOf_get? h]
  rfl

theorem keyAt_eq_of_get? {L : DepMap} {q : Nat} {e : String × List String}
    (h : L.get? q = some e) : keyAt L q = e.1 := by
  unfold keyAt
  rw [List.getD_eq_get?, keysOf_get?, h]
  rfl

theorem keyAt_mem {L : DepMap} {q : Nat} (hq : q < L.length) :
    keyAt L q ∈ keysOf L := by
  have hg : L.get? q = some (L.get ⟨q, hq⟩) := List.get?_eq_get hq
  rw [keyAt_eq_of_get? hg]
  exact List.mem_map_of_mem Prod.fst (List.get_mem L q hq)

theorem idxOfKey_keyAt {L : DepMap} (nd : (keysOf L).Nodup) {q : Nat}
    (hq : q < L.length) : idxOfKey L (keyAt L q) = q := by
  have hq' : q < (keysOf L).length := by rw [keysOf_length]; exact hq
  have h1 : keyAt L q = (keysOf L).get ⟨q, hq'⟩ := by
    unfold keyAt
    rw [List.getD_eq_get?, List.get?_eq_get hq']
    rfl
  rw [h1]
  unfold idxOfKey
  simpa using List.indexOf_getElem nd q hq'

/-- The entry stored at the position of key `k` is `(k, depsOf L k)`. -/
theorem get?_idxOfKey {L : DepMap} (nd : (keysOf L).Nodup) {k : String}
    (h : k ∈ keysOf L) : L.get? (idxOfKey L k) = some (k, depsOf L k) := by
  have hlt : idxOfKey L k < L.length := (idxOfKey_lt_length_iff L k).mpr h
  have hg : L.get? (idxOfKey L k) = some (L.get ⟨idxOfKey L k, hlt⟩) :=
    List.get?_eq_get hlt
  have h1 : keyAt L (idxOfKey L k) = k := keyAt_idxOfKey h
  have h2 : (L.get ⟨idxOfKey L k, hlt⟩).1 = k :=
    (keyAt_eq_of_get? hg).symm.trans h1
  have h3 : (L.get ⟨idxOfKey L k, hlt⟩).2 = depsOf L k := by
    rw [← depsOf_eq_of_mem nd (List.get_mem L (idxOfKey L k) hlt), h2]
  have h4 : L.get ⟨idxOfKey L k, hlt⟩ = (k, depsOf L k) := Prod.ext h2 h3
  rw [hg, h4]

theorem indexOf_eq_of_prefix_eq {k : String} :
    ∀ {l l' : List String} {j : Nat}, (∀ p, p ≤ j → l.get? p = l'.get? p) →
      l.indexOf k = j → j < l.length → l'.indexOf k = j := by
  intro l
  induction l with
  | nil => intro l' j _ _ hj; simp at hj
  | cons a t ih =>
    intro l' j hpre hidx hj
    have h0 : l'.get? 0 = some a := by rw [← hpre 0 (Nat.zero_le j)]; rfl
    rcases l' with _ | ⟨b, t'⟩
    · simp at h0
    · have hb : a = b := by
        have h0' : b = a := by simpa using h0
        exact h0'.symm
      subst hb
      by_cases hak : a = k
      · subst hak
        simp only [List.indexOf_cons_self] at hidx
        simp [← hidx, List.indexOf_cons_self]
      · rw [List.indexOf_cons_ne _ (by simpa using hak)] at hidx
        cases j with
        | zero => exact absurd hidx (by simp)
        | succ j' =>
          have hidx' : t.indexOf k = j' := by omega
          have hj' : j' < t.length := by simpa using hj
          have hpre' : ∀ p, p ≤ j' → t.get? p = t'.get? p := by
            intro p hp
            have := hpre (p + 1) (by omega)
            simpa using this
          rw [List.indexOf_cons_ne _ (by simpa using hak), ih hpre' hidx' hj']

/-! #### Behaviour of one dependency scan (`procDeps`) -/

theorem procDeps_ok {L₀ : DepMap} (nd₀ : (keysOf L₀).Nodup) {idx : Nat}
    {key : String} :
    ∀ {ds : List String} {L : DepMap} {c : Bool} {L₁ : DepMap} {c₁ : Bool},
      List.Perm L L₀ → (∀ d ∈ ds, d ∈ keysOf L₀) →
      procDeps idx key ds L c = .ok (L₁, c₁) →
      List.Perm L₁ L₀ ∧ (∀ q, q < idx → L₁.get? q = L.get? q) ∧
        ((L₁ = L ∧ c₁ = c ∧ ∀ d ∈ ds, idxOfKey L d ≤ idx) ∨
         (c₁ = false ∧ keyAt L₁ idx ∈ ds)) := by
  intro ds
  induction ds with
  | nil =>
    intro L c L₁ c₁ hperm _ hok
    unfold procDeps at hok
    rcases hok
    exact ⟨hperm, fun q _ => rfl, Or.inl ⟨rfl, rfl, by simp⟩⟩
  | cons d ds ih =>
    intro L c L₁ c₁ hperm hkeys hok
    unfold procDeps at hok
    by_cases hcyc : key ∈ depsOf L d
    · rw [if_pos hcyc] at hok
      exact absurd hok (by simp)
    · rw [if_neg hcyc] at hok
      dsimp only at hok
      have hdL : d ∈ keysOf L :=
        ((keysOf_perm hperm).symm.mem_iff).mp (hkeys d (by simp))
      have hjlt : idxOfKey L d < L.length := (idxOfKey_lt_length_iff L d).mpr hdL
      by_cases hswap : idx < idxOfKey L d
      · rw [if_pos hswap] at hok
        have hperm' : List.Perm (swapAt L idx (idxOfKey L d)) L₀ :=
          (swapAt_perm L idx (idxOfKey L d)).trans hperm
        obtain ⟨p1, p2, p3⟩ := ih hperm' (fun x hx => hkeys x (by simp [hx])) hok
        refine ⟨p1, ?_, ?_⟩
        · intro q hq
          rw [p2 q hq, swapAt_get?_of_ne L (by omega) (by omega)]
        · rcases p3 with ⟨hL₁, hc₁, _⟩ | ⟨hc₁, hmem⟩
          · -- the recursive call made no further change: the dependency `d`
            -- now sits at the scanned position
            refine Or.inr ⟨hc₁, ?_⟩
            rw [hL₁]
            have hidx : idx < L.length := lt_trans hswap hjlt
            have hnd : (keysOf L).Nodup := ((keysOf_perm hperm).symm).nodup nd₀
            have hg : (swapAt L idx (idxOfKey L d)).get? idx
                = L.get? (idxOfKey L d) := swapAt_get?_fst L hidx hjlt
            rw [get?_idxOfKey hnd hdL] at hg
            rw [keyAt_eq_of_get? hg]
            simp
          · exact Or.inr ⟨hc₁, by simp [hmem]⟩
      · rw [if_neg hswap] at hok
        obtain ⟨p1, p2, p3⟩ := ih hperm (fun x hx => hkeys x (by simp [hx])) hok
        refine ⟨p1, p2, ?_⟩
        rcases p3 with ⟨hL₁, hc₁, hb⟩ | ⟨hc₁, hmem⟩
        · refine Or.inl ⟨hL₁, hc₁, ?_⟩
          intro x hx
          rcases List.mem_cons.mp hx with rfl | hxs
          · omega
          · exact hb x hxs
        · exact Or.inr ⟨hc₁, by simp [hmem]⟩

theorem procDeps_err {L₀ : DepMap} (nd₀ : (keysOf L₀).Nodup) {idx : Nat}
    {key : String} :
    ∀ {ds : List String} {L : DepMap} {c : Bool} {k d : String},
      List.Perm L L₀ → procDeps idx key ds L c = .error (k, d) →
      k = key ∧ d ∈ ds ∧ key ∈ depsOf L₀ d := by
  intro ds
  induction ds with
  | nil =>
    intro L c k d _ herr
    unfold procDeps at herr
    exact absurd herr (by simp)
  | cons x ds ih =>
    intro L c k d hperm herr
    unfold procDeps at herr
    by_cases hcyc : key ∈ depsOf L x
    · rw [if_pos hcyc] at herr
      have hnd : (keysOf L).Nodup := ((keysOf_perm hperm).symm).nodup nd₀
      have h1 : k = key ∧ d = x := by
        have := herr
        simp only [Except.error.injEq, Prod.mk.injEq] at this
        exact ⟨this.1.symm, this.2.symm⟩
      refine ⟨h1.1, by simp [h1.2], ?_⟩
      rw [h1.2, ← depsOf_eq_of_perm hperm hnd x]
      exact hcyc
    · rw [if_neg hcyc] at herr
      dsimp only at herr
      by_cases hswap : idx < idxOfKey L x
      · rw [if_pos hswap] at herr
        have hperm' : List.Perm (swapAt L idx (idxOfKey L x)) L₀ :=
          (swapAt_perm L idx (idxOfKey L x)).trans hperm
        obtain ⟨e1, e2, e3⟩ := ih hperm' herr
        exact ⟨e1, by simp [e2], e3⟩
      · rw [if_neg hswap] at herr
        obtain ⟨e1, e2, e3⟩ := ih hperm herr
        exact ⟨e1, by simp [e2], e3⟩

theorem procDeps_ac_ok {L₀ : DepMap} (nd₀ : (keysOf L₀).Nodup) {r : String → ℕ}
    (hr : ∀ k d, d ∈ depsOf L₀ k → r d < r k) (idx : Nat) (c : Bool)
    {key : String} {ds : List String} {L : DepMap} (hperm : List.Perm L L₀)
    (hds : ∀ d ∈ ds, d ∈ depsOf L₀ key) :
    ∃ L₁ c₁, procDeps idx key ds L c = .ok (L₁, c₁) := by
  cases hres : procDeps idx key ds L c with
  | error e =>
    obtain ⟨k, d⟩ := e
    obtain ⟨e1, e2, e3⟩ := procDeps_err nd₀ hperm hres
    have h1 : r d < r key := hr key d (hds d e2)
    have h2 : r key < r d := hr d key (e1 ▸ e3)
    omega
  | ok p =>
    obtain ⟨L₁, c₁⟩ := p
    exact ⟨L₁, c₁, rfl⟩

theorem procDeps_noswap {idx : Nat} {key : String} :
    ∀ {ds : List String} {L : DepMap} {c : Bool},
      (∀ d ∈ ds, ¬ idx < idxOfKey L d) → (∀ d ∈ ds, key ∉ depsOf L d) →
      procDeps idx key ds L c = .ok (L, c) := by
  intro ds
  induction ds with
  | nil => intro L c _ _; rfl
  | cons d ds ih =>
    intro L c hpos hcyc
    unfold procDeps
    rw [if_neg (hcyc d (by simp))]
    dsimp only
    rw [if_neg (hpos d (by simp))]
    exact ih (fun x hx => hpos x (by simp [hx])) (fun x hx => hcyc x (by simp [hx]))

theorem procDeps_false_mono {idx : Nat} {key : String} :
    ∀ {ds : List String} {L : DepMap} {L₁ : DepMap} {c₁ : Bool},
      procDeps idx key ds L false = .ok (L₁, c₁) → c₁ = false := by
  intro ds
  induction ds with
  | nil =>
    intro L L₁ c₁ h
    unfold procDeps at h
    simp only [Except.ok.injEq, Prod.mk.injEq] at h
    exact h.2.symm
  | cons d ds ih =>
    intro L L₁ c₁ h
    unfold procDeps at h
    by_cases hcyc : key ∈ depsOf L d
    · rw [if_pos hcyc] at h
      exact absurd h (by simp)
    · rw [if_neg hcyc] at h
      dsimp only at h
      by_cases hswap : idx < idxOfKey L d
      · rw [if_pos hswap] at h
        exact ih h
      · rw [if_neg hswap] at h
        exact ih h

theorem procDeps_true {idx : Nat} {key : String} :
    ∀ {ds : List String} {L : DepMap} {c : Bool} {L₁ : DepMap},
      procDeps idx key ds L c = .ok (L₁, true) →
      L₁ = L ∧ c = true ∧ ∀ d ∈ ds, idxOfKey L d ≤ idx := by
  intro ds
  induction ds with
  | nil =>
    intro L c L₁ h
    unfold procDeps at h
    simp only [Except.ok.injEq, Prod.mk.injEq] at h
    exact ⟨h.1.symm, h.2, by simp⟩
  | cons d ds ih =>
    intro L c L₁ h
    unfold procDeps at h
    by_cases hcyc : key ∈ depsOf L d
    · rw [if_pos hcyc] at h
      exact absurd h (by simp)
    · rw [if_neg hcyc] at h
      dsimp only at h
      by_cases hswap : idx < idxOfKey L d
      · rw [if_pos hswap] at h
        exact absurd (procDeps_false_mono h) (by simp)
      · rw [if_neg hswap] at h
        obtain ⟨h1, h2, h3⟩ := ih h
        refine ⟨h1, h2, ?_⟩
        intro x hx
        rcases List.mem_cons.mp hx with rfl | hxs
        · omega
        · exact h3 x hxs

/-! #### Behaviour of a whole pass (`procIdxs`) -/

theorem procIdxs_append (A B : List Nat) :
    ∀ (L : DepMap) (c : Bool),
      procIdxs (A ++ B) L c =
        match procIdxs A L c with
        | .error e => .error e
        | .ok (L₁, c₁) => procIdxs B L₁ c₁ := by
  induction A with
  | nil => intro L c; rfl
  | cons idx rest ih =>
    intro L c
    show procIdxs (idx :: (rest ++ B)) L c = _
    simp only [procIdxs]
    cases hres : procDeps idx ((keysOf L).getD idx "") (depsOf L ((keysOf L).getD idx "")) L c with
    | error e => rfl
    | ok p => exact ih p.1 p.2

theorem procIdxs_ok {L₀ : DepMap} (nd₀ : (keysOf L₀).Nodup)
    (wf₀ : ∀ k d, d ∈ depsOf L₀ k → d ∈ keysOf L₀) :
    ∀ {idxs : List Nat} {L : DepMap} {c : Bool} {L₁ : DepMap} {c₁ : Bool},
      List.Perm L L₀ → procIdxs idxs L c = .ok (L₁, c₁) →
      List.Perm L₁ L₀ ∧ (c = false → c₁ = false) ∧
        (∀ b, (∀ idx ∈ idxs, b < idx) → ∀ q, q ≤ b → L₁.get? q = L.get? q) := by
  intro idxs
  induction idxs with
  | nil =>
    intro L c L₁ c₁ hperm h
    simp only [procIdxs] at h
    simp only [Except.ok.injEq, Prod.mk.injEq] at h
    rw [← h.1, ← h.2]
    exact ⟨hperm, fun hc => hc, fun _ _ _ _ => rfl⟩
  | cons idx rest ih =>
    intro L c L₁ c₁ hperm h
    simp only [procIdxs] at h
    cases hres : procDeps idx ((keysOf L).getD idx "") (depsOf L ((keysOf L).getD idx "")) L c with
    | error e => rw [hres] at h; exact absurd h (by simp)
    | ok p =>
      rw [hres] at h
      dsimp only at h
      have hnd : (keysOf L).Nodup := ((keysOf_perm hperm).symm).nodup nd₀
      have hkeys : ∀ d ∈ depsOf L ((keysOf L).getD idx ""), d ∈ keysOf L₀ := by
        intro d hd
        rw [depsOf_eq_of_perm hperm hnd] at hd
        exact wf₀ _ d hd
      obtain ⟨p1, p2, p3⟩ := procDeps_ok nd₀ hperm hkeys (by rw [hres])
      obtain ⟨q1, q2, q3⟩ := ih p1 h
      refine ⟨q1, ?_, ?_⟩
      · intro hc
        apply q2
        rcases p3 with ⟨_, hc₁, _⟩ | ⟨hc₁, _⟩
        · rw [hc₁, hc]
        · exact hc₁
      · intro b hb q hq
        rw [q3 b (fun x hx => hb x (by simp [hx])) q hq,
          p2 q (by have := hb idx (by simp); omega)]

theorem procIdxs_err {L₀ : DepMap} (nd₀ : (keysOf L₀).Nodup)
    (wf₀ : ∀ k d, d ∈ depsOf L₀ k → d ∈ keysOf L₀) :
    ∀ {idxs : List Nat} {L : DepMap} {c : Bool} {k d : String},
      List.Perm L L₀ → procIdxs idxs L c = .error (k, d) →
      d ∈ depsOf L₀ k ∧ k ∈ depsOf L₀ d := by
  intro idxs
  induction idxs with
  | nil =>
    intro L c k d _ h
    simp only [procIdxs] at h
    exact absurd h (by simp)
  | cons idx rest ih =>
    intro L c k d hperm h
    simp only [procIdxs] at h
    cases hres : procDeps idx ((keysOf L).getD idx "") (depsOf L ((keysOf L).getD idx "")) L c with
    | error e =>
      rw [hres] at h
      dsimp only at h
      obtain ⟨k', d'⟩ := e
      simp only [Except.error.injEq, Prod.mk.injEq] at h
      obtain ⟨e1, e2, e3⟩ := procDeps_err nd₀ hperm hres
      have hnd : (keysOf L).Nodup := ((keysOf_perm hperm).symm).nodup nd₀
      rw [depsOf_eq_of_perm hperm hnd] at e2
      constructor
      · rw [← h.1, ← h.2, e1]
        exact e2
      · rw [← h.1, ← h.2, e1]
        exact e3
    | ok p =>
      rw [hres] at h
      dsimp only at h
      have hnd : (keysOf L).Nodup := ((keysOf_perm hperm).symm).nodup nd₀
      have hkeys : ∀ x ∈ depsOf L ((keysOf L).getD idx ""), x ∈ keysOf L₀ := by
        intro x hx
        rw [depsOf_eq_of_perm hperm hnd] at hx
        exact wf₀ _ x hx
      obtain ⟨p1, _, _⟩ := procDeps_ok nd₀ hperm hkeys (by rw [hres])
      exact ih p1 h

theorem procIdxs_success :
    ∀ {idxs : List Nat} {L : DepMap} {c : Bool} {L₁ : DepMap},
      procIdxs idxs L c = .ok (L₁, true) →
      L₁ = L ∧ c = true ∧
        ∀ idx ∈ idxs, ∀ d ∈ depsOf L ((keysOf L).getD idx ""),
          idxOfKey L d ≤ idx := by
  intro idxs
  induction idxs with
  | nil =>
    intro L c L₁ h
    simp only [procIdxs] at h
    simp only [Except.ok.injEq, Prod.mk.injEq] at h
    exact ⟨h.1.symm, h.2, by simp⟩
  | cons idx rest ih =>
    intro L c L₁ h
    simp only [procIdxs] at h
    cases hres : procDeps idx ((keysOf L).getD idx "") (depsOf L ((keysOf L).getD idx "")) L c with
    | error e => rw [hres] at h; exact absurd h (by simp)
    | ok p =>
      obtain ⟨L₂, c₂⟩ := p
      rw [hres] at h
      dsimp only at h
      obtain ⟨q1, q2, q3⟩ := ih h
      rw [q2] at hres
      obtain ⟨r1, r2, r3⟩ := procDeps_true hres
      subst r1
      refine ⟨q1, r2, ?_⟩
      intro x hx d hd
      rcases List.mem_cons.mp hx with rfl | hxs
      · exact r3 d hd
      · exact q3 x hxs d hd

theorem keyAt_def (L : DepMap) (q : Nat) : keyAt L q = (keysOf L).getD q "" := rfl

theorem mem_nonEmptyIdxs_iff {L : DepMap} {q : Nat} :
    q ∈ nonEmptyIdxs L ↔
      q < L.length ∧ ((L.get? q).map Prod.snd).getD [] ≠ [] := by
  unfold nonEmptyIdxs
  simp [List.mem_filter]

theorem snd_getD_eq_depsOf {L : DepMap} (nd : (keysOf L).Nodup) {q : Nat}
    (hq : q < L.length) :
    ((L.get? q).map Prod.snd).getD [] = depsOf L (keyAt L q) := by
  have hg : L.get? q = some (L.get ⟨q, hq⟩) := List.get?_eq_get hq
  rw [hg, keyAt_eq_of_get? hg, depsOf_eq_of_mem nd (List.get_mem L q hq)]
  rfl

theorem mem_nonEmptyIdxs {L : DepMap} (nd : (keysOf L).Nodup) {q : Nat}
    (hq : q < L.length) (hne : depsOf L (keyAt L q) ≠ []) :
    q ∈ nonEmptyIdxs L := by
  rw [mem_nonEmptyIdxs_iff, snd_getD_eq_depsOf nd hq]
  exact ⟨hq, hne⟩

theorem nonEmptyIdxs_lt {L : DepMap} {q : Nat} (h : q ∈ nonEmptyIdxs L) :
    q < L.length := (mem_nonEmptyIdxs_iff.mp h).1

theorem nonEmptyIdxs_sorted (L : DepMap) :
    (nonEmptyIdxs L).Pairwise (· < ·) := by
  unfold nonEmptyIdxs
  exact (List.pairwise_lt_range _).filter _

/-! #### The longest in-order prefix and its growth -/

/-- Decidable version of `InOrderAt`. -/
def inOrderB (L : DepMap) (q : Nat) : Bool :=
  (depsOf L (keyAt L q)).all (fun d => idxOfKey L d < q)

theorem inOrderB_iff (L : DepMap) (q : Nat) :
    inOrderB L q = true ↔ InOrderAt L q := by
  unfold inOrderB InOrderAt
  simp

/-- Extend an in-order prefix bound to the right as far as possible. -/
def extendPref (L : DepMap) (p : Nat) : Nat :=
  if h : p < L.length then
    (if inOrderB L p then extendPref L (p + 1) else p)
  else p
termination_by L.length - p

theorem le_extendPref (L : DepMap) (p : Nat) : p ≤ extendPref L p := by
  unfold extendPref
  by_cases h : p < L.length
  · rw [dif_pos h]
    by_cases hio : inOrderB L p
    · rw [if_pos hio]
      have := le_extendPref L (p + 1)
      omega
    · rw [if_neg hio]
  · rw [dif_neg h]
termination_by L.length - p

theorem extendPref_le (L : DepMap) (p : Nat) (hp : p ≤ L.length) :
    extendPref L p ≤ L.length := by
  unfold extendPref
  by_cases h : p < L.length
  · rw [dif_pos h]
    by_cases hio : inOrderB L p
    · rw [if_pos hio]
      exact extendPref_le L (p + 1) h
    · rw [if_neg hio]
      exact hp
  · rw [dif_neg h]
    exact hp
termination_by L.length - p

theorem extendPref_inOrder (L : DepMap) (p : Nat) :
    ∀ q, p ≤ q → q < extendPref L p → InOrderAt L q := by
  intro q hq hlt
  by_cases h : p < L.length
  · by_cases hio : inOrderB L p
    · rcases Nat.eq_or_lt_of_le hq with heq | hq'
      · exact heq ▸ (inOrderB_iff L p).mp hio
      · have hlt' : q < extendPref L (p + 1) := by
          unfold extendPref at hlt
          rw [dif_pos h, if_pos hio] at hlt
          exact hlt
        exact extendPref_inOrder L (p + 1) q hq' hlt'
    · unfold extendPref at hlt
      rw [dif_pos h, if_neg hio] at hlt
      omega
  · unfold extendPref at hlt
    rw [dif_neg h] at hlt
    omega
termination_by L.length - p

theorem extendPref_bad (L : DepMap) (p : Nat)
    (h : extendPref L p < L.length) : ¬ InOrderAt L (extendPref L p) := by
  by_cases hp : p < L.length
  · by_cases hio : inOrderB L p
    · have he : extendPref L p = extendPref L (p + 1) := by
        conv_lhs => rw [extendPref]
        rw [dif_pos hp, if_pos hio]
      rw [he] at h ⊢
      exact extendPref_bad L (p + 1) h
    · have he : extendPref L p = p := by
        unfold extendPref
        rw [dif_pos hp, if_neg hio]
      rw [he]
      rw [← inOrderB_iff]
      simp [hio]
  · have he : extendPref L p = p := by
      unfold extendPref
      rw [dif_neg hp]
    omega
termination_by L.length - p

theorem le_foldr_max (l : List ℕ) (x : ℕ) (h : x ∈ l) : x ≤ l.foldr max 0 := by
  induction l with
  | nil => cases h
  | cons a t ih =>
    rcases List.mem_cons.mp h with rfl | ht
    · exact Nat.le_max_left _ _
    · exact le_trans (ih ht) (Nat.le_max_right _ _)

/-! #### Progress of a full pass on an acyclic dependency map -/

theorem procIdxs_ac_ok {L₀ : DepMap} (nd₀ : (keysOf L₀).Nodup)
    {r : String → ℕ} (hr : ∀ k d, d ∈ depsOf L₀ k → r d < r k)
    (wf₀ : ∀ k d, d ∈ depsOf L₀ k → d ∈ keysOf L₀) :
    ∀ (idxs : List Nat) (c : Bool) {L : DepMap}, List.Perm L L₀ →
      ∃ L₁ c₁, procIdxs idxs L c = .ok (L₁, c₁) := by
  intro idxs
  induction idxs with
  | nil => intro c L _; exact ⟨L, c, rfl⟩
  | cons idx rest ih =>
    intro c L hperm
    have hnd : (keysOf L).Nodup := ((keysOf_perm hperm).symm).nodup nd₀
    have hds : ∀ d ∈ depsOf L ((keysOf L).getD idx ""),
        d ∈ depsOf L₀ ((keysOf L).getD idx "") := by
      intro d hd
      rw [depsOf_eq_of_perm hperm hnd] at hd
      exact hd
    obtain ⟨L₂, c₂, h₂⟩ := procDeps_ac_ok nd₀ hr idx c hperm hds
    have hkeys : ∀ d ∈ depsOf L ((keysOf L).getD idx ""), d ∈ keysOf L₀ := by
      intro d hd
      exact wf₀ _ _ (hds d hd)
    obtain ⟨p1, _, _⟩ := procDeps_ok nd₀ hperm hkeys h₂
    obtain ⟨L₁, c₁, h₁⟩ := ih c₂ p1
    refine ⟨L₁, c₁, ?_⟩
    simp only [procIdxs]
    rw [h₂]
    exact h₁

theorem procIdxs_noop {L₀ : DepMap} (nd₀ : (keysOf L₀).Nodup)
    {r : String → ℕ} (hr : ∀ k d, d ∈ depsOf L₀ k → r d < r k)
    {L : DepMap} (hperm : List.Perm L L₀) :
    ∀ {A : List Nat}, (∀ idx ∈ A, InOrderAt L idx) →
      procIdxs A L true = .ok (L, true) := by
  have hnd : (keysOf L).Nodup := ((keysOf_perm hperm).symm).nodup nd₀
  intro A
  induction A with
  | nil => intro _; rfl
  | cons idx rest ih =>
    intro hA
    have hio : InOrderAt L idx := hA idx (by simp)
    have hpos : ∀ d ∈ depsOf L ((keysOf L).getD idx ""),
        ¬ idx < idxOfKey L d := by
      intro d hd
      have := hio d (by rw [keyAt_def]; exact hd)
      omega
    have hcyc : ∀ d ∈ depsOf L ((keysOf L).getD idx ""),
        (keysOf L).getD idx "" ∉ depsOf L d := by
      intro d hd hmem
      rw [depsOf_eq_of_perm hperm hnd] at hd hmem
      have h1 : r d < r ((keysOf L).getD idx "") := hr _ d hd
      have h2 : r ((keysOf L).getD idx "") < r d := hr d _ hmem
      omega
    simp only [procIdxs]
    rw [procDeps_noswap hpos hcyc]
    exact ih (fun x hx => hA x (by simp [hx]))

theorem prefix_preserved {L L₂ : DepMap} {P : Nat}
    (hdeps : ∀ k, depsOf L₂ k = depsOf L k)
    (hframe : ∀ q, q < P → L₂.get? q = L.get? q)
    (hP : P ≤ L.length)
    (hpre : ∀ q, q < P → InOrderAt L q) :
    ∀ q, q < P → InOrderAt L₂ q := by
  intro q hq
  have hkeys : ∀ p, p ≤ q → (keysOf L).get? p = (keysOf L₂).get? p := by
    intro p hp
    rw [keysOf_get?, keysOf_get?, hframe p (by omega)]
  have hkey : keyAt L₂ q = keyAt L q := by
    rw [keyAt_def, keyAt_def, List.getD_eq_get?, List.getD_eq_get?,
      hkeys q (le_refl q)]
  intro d hd
  rw [hkey, hdeps] at hd
  have hlt : idxOfKey L d < q := hpre q hq d hd
  have hidx : idxOfKey L₂ d = idxOfKey L d := by
    have hlen' : idxOfKey L d < (keysOf L).length := by
      rw [keysOf_length]
      omega
    exact indexOf_eq_of_prefix_eq (fun p hp => hkeys p (by omega)) rfl hlen'
  omega

/-- A pass over a fully in-order dictionary finds nothing to do and reports
consistency. -/
theorem pass_consistent {L₀ : DepMap} (nd₀ : (keysOf L₀).Nodup)
    {r : String → ℕ} (hr : ∀ k d, d ∈ depsOf L₀ k → r d < r k)
    {L : DepMap} (hperm : List.Perm L L₀)
    (hall : ∀ q, q < L.length → InOrderAt L q) :
    onePass L = .ok (L, true) := by
  unfold onePass
  exact procIdxs_noop nd₀ hr hperm
    (fun idx hidx => hall idx (nonEmptyIdxs_lt hidx))

/-- A pass over a dictionary whose longest in-order prefix ends at `P`
swaps at `P`: it reports inconsistency, leaves the prefix untouched, and
replaces the entry at `P` by one of the scanned key's own dependencies. -/
theorem pass_progress {L₀ : DepMap} (nd₀ : (keysOf L₀).Nodup)
    (wf₀ : ∀ k d, d ∈ depsOf L₀ k → d ∈ keysOf L₀)
    {r : String → ℕ} (hr : ∀ k d, d ∈ depsOf L₀ k → r d < r k)
    {L : DepMap} (hperm : List.Perm L L₀) {P : Nat}
    (hpre : ∀ q, q < P → InOrderAt L q) (hP : P < L.length)
    (hbad : ¬ InOrderAt L P) :
    ∃ L₂, onePass L = .ok (L₂, false) ∧ List.Perm L₂ L₀ ∧
      (∀ q, q < P → L₂.get? q = L.get? q) ∧
      keyAt L₂ P ∈ depsOf L₀ (keyAt L P) := by
  have hnd : (keysOf L).Nodup := ((keysOf_perm hperm).symm).nodup nd₀
  -- the entry at `P` has an out-of-order dependency, hence a non-empty list
  have hbad' : ∃ d ∈ depsOf L (keyAt L P), P ≤ idxOfKey L d := by
    unfold InOrderAt at hbad
    push_neg at hbad
    exact hbad
  have hne : depsOf L (keyAt L P) ≠ [] := by
    obtain ⟨d, hd, _⟩ := hbad'
    intro hnil
    rw [hnil] at hd
    cases hd
  have hPmem : P ∈ nonEmptyIdxs L := mem_nonEmptyIdxs hnd hP hne
  obtain ⟨A, B, hsplit⟩ := List.append_of_mem hPmem
  have hsorted := nonEmptyIdxs_sorted L
  rw [hsplit] at hsorted
  have hApre : ∀ x ∈ A, x < P := by
    intro x hx
    have := (List.pairwise_append.mp hsorted).2.2
    exact this x hx P (by simp)
  have hBpost : ∀ x ∈ B, P < x := by
    intro x hx
    have := List.pairwise_cons.mp (List.pairwise_append.mp hsorted).2.1
    exact this.1 x hx
  -- phase 1: everything before `P` is in order and does nothing
  have hphase1 : procIdxs A L true = .ok (L, true) :=
    procIdxs_noop nd₀ hr hperm (fun x hx => hpre x (hApre x hx))
  -- phase 2: the scan at `P` must swap
  have hds : ∀ d ∈ depsOf L ((keysOf L).getD P ""),
      d ∈ depsOf L₀ ((keysOf L).getD P "") := by
    intro d hd
    rw [depsOf_eq_of_perm hperm hnd] at hd
    exact hd
  obtain ⟨L₁, c₁, h₁⟩ := procDeps_ac_ok nd₀ hr P true hperm hds
  have hkeys : ∀ d ∈ depsOf L ((keysOf L).getD P ""), d ∈ keysOf L₀ :=
    fun d hd => wf₀ _ _ (hds d hd)
  obtain ⟨p1, p2, p3⟩ := procDeps_ok nd₀ hperm hkeys h₁
  have hswapcase : c₁ = false ∧ keyAt L₁ P ∈ depsOf L ((keysOf L).getD P "") := by
    rcases p3 with ⟨hL₁, hc₁, hble⟩ | h
    · exfalso
      obtain ⟨d, hd, hdge⟩ := hbad'
      rw [keyAt_def] at hd
      have h1 : idxOfKey L d ≤ P := hble d hd
      have h2 : idxOfKey L d = P := le_antisymm h1 hdge
      have hdK : d ∈ keysOf L := by
        have := hkeys d hd
        exact ((keysOf_perm hperm).symm.mem_iff).mp this
      have h3 : keyAt L P = d := by
        rw [← h2]
        exact keyAt_idxOfKey hdK
      have h4 : d ∈ depsOf L₀ (keyAt L P) := by
        rw [← depsOf_eq_of_perm hperm hnd, keyAt_def]
        exact hd
      rw [h3] at h4
      exact absurd (hr d d h4) (by omega)
    · exact h
  -- phase 3: the remaining scans stay strictly right of `P`
  obtain ⟨L₂, c₂, h₂⟩ := procIdxs_ac_ok nd₀ hr wf₀ B c₁ p1
  obtain ⟨q1, q2, q3⟩ := procIdxs_ok nd₀ wf₀ p1 h₂
  have hc₂ : c₂ = false := q2 hswapcase.1
  have hB : ∀ q, q ≤ P → L₂.get? q = L₁.get? q :=
    q3 P (fun x hx => hBpost x hx)
  obtain ⟨hc₁, hocc⟩ := hswapcase
  subst hc₁
  subst hc₂
  refine ⟨L₂, ?_, q1, ?_, ?_⟩
  · unfold onePass
    rw [hsplit, procIdxs_append, hphase1]
    simp only [procIdxs]
    rw [h₁]
    exact h₂
  · intro q hq
    rw [hB q (by omega), p2 q hq]
  · have hkey₂ : keyAt L₂ P = keyAt L₁ P := by
      rw [keyAt_def, keyAt_def, List.getD_eq_get?, List.getD_eq_get?,
        keysOf_get?, keysOf_get?, hB P (le_refl P)]
    rw [hkey₂, ← depsOf_eq_of_perm hperm hnd (keyAt L P)]
    rw [keyAt_def]
    exact hocc

theorem measure_dec {a b H s t : ℕ} (hab : b < a) (hs : s ≤ H) :
    b * (H + 1) + s < a * (H + 1) + t := by
  have h1 : b * (H + 1) + s < (b + 1) * (H + 1) := by
    have : (b + 1) * (H + 1) = b * (H + 1) + (H + 1) := by ring
    omega
  have h2 : (b + 1) * (H + 1) ≤ a * (H + 1) := Nat.mul_le_mul_right _ (by omega)
  omega

/-- Core induction: from any state whose longest in-order prefix ends at `P`,
the `while not consistent` loop reaches a consistent, fully in-order
reordering of the dictionary.  The measure is lexicographic: how far the
in-order prefix still has to grow, then the rank of the entry at its end
(each pass either grows the prefix or replaces that entry by one of its own
dependencies, which has strictly smaller rank). -/
theorem resolve_measure {L₀ : DepMap} (nd₀ : (keysOf L₀).Nodup)
    (wf₀ : ∀ k d, d ∈ depsOf L₀ k → d ∈ keysOf L₀)
    {r : String → ℕ} (hr : ∀ k d, d ∈ depsOf L₀ k → r d < r k) :
    ∀ (M : Nat) (L : DepMap) (P : Nat), List.Perm L L₀ →
      (∀ q, q < P → InOrderAt L q) → P ≤ L.length →
      (P = L.length ∨ ¬ InOrderAt L P) →
      (L.length - P) * (((keysOf L₀).map r).foldr max 0 + 1) +
        (if P < L.length then r (keyAt L P) else 0) ≤ M →
      ∃ n L₁, resolveLoop n L = .ok (some L₁) ∧ List.Perm L₁ L₀ ∧
        ∀ q, q < L₁.length → InOrderAt L₁ q := by
  intro M
  induction M using Nat.strong_induction_on with
  | _ M ih =>
    intro L P hperm hpre hPle h3 hM
    by_cases hP : P < L.length
    · -- the prefix is not yet the whole dictionary: the pass must swap
      have hbad : ¬ InOrderAt L P := by
        rcases h3 with h | h
        · omega
        · exact h
      obtain ⟨L₂, hop, hperm₂, hframe, hocc⟩ :=
        pass_progress nd₀ wf₀ hr hperm hpre hP hbad
      have hlen₂ : L₂.length = L.length :=
        (hperm₂.length_eq).trans (hperm.length_eq).symm
      have hdeps₂ : ∀ k, depsOf L₂ k = depsOf L k := by
        intro k
        have hnd₂ : (keysOf L₂).Nodup := ((keysOf_perm hperm₂).symm).nodup nd₀
        rw [depsOf_eq_of_perm hperm₂ hnd₂ k]
        have hnd : (keysOf L).Nodup := ((keysOf_perm hperm).symm).nodup nd₀
        rw [depsOf_eq_of_perm hperm hnd k]
      have hpre₂ : ∀ q, q < P → InOrderAt L₂ q :=
        prefix_preserved hdeps₂ hframe (le_of_lt hP) hpre
      set H := ((keysOf L₀).map r).foldr max 0 with hH
      have hrank : ∀ k, k ∈ keysOf L₀ → r k ≤ H := by
        intro k hk
        exact le_foldr_max _ _ (List.mem_map_of_mem r hk)
      set P₂ := extendPref L₂ P with hP₂
      have hP₂ge : P ≤ P₂ := le_extendPref L₂ P
      have hP₂le : P₂ ≤ L₂.length := extendPref_le L₂ P (by omega)
      have hpre₂' : ∀ q, q < P₂ → InOrderAt L₂ q := by
        intro q hq
        by_cases hqP : q < P
        · exact hpre₂ q hqP
        · exact extendPref_inOrder L₂ P q (by omega) hq
      have h3₂ : P₂ = L₂.length ∨ ¬ InOrderAt L₂ P₂ := by
        rcases Nat.eq_or_lt_of_le hP₂le with h | h
        · exact Or.inl h
        · exact Or.inr (extendPref_bad L₂ P h)
      -- the measure strictly decreases
      have hkeyP : keyAt L P ∈ keysOf L₀ := by
        have := keyAt_mem hP
        exact ((keysOf_perm hperm).mem_iff).mp this
      have hrP : r (keyAt L P) ≤ H := hrank _ hkeyP
      have hoccrank : r (keyAt L₂ P) < r (keyAt L P) := hr _ _ hocc
      have hmeas₂ :
          (L₂.length - P₂) * (H + 1) +
            (if P₂ < L₂.length then r (keyAt L₂ P₂) else 0) < M := by
        rcases Nat.eq_or_lt_of_le hP₂ge with hPeq | hPlt
        · -- the prefix did not grow: the entry at its end has smaller rank
          have hP₂lt : P₂ < L₂.length := by omega
          rw [if_pos hP₂lt]
          have h1 : r (keyAt L₂ P₂) < r (keyAt L P) := by
            rw [← hPeq]
            exact hoccrank
          have h2 : (L₂.length - P₂) = (L.length - P) := by omega
          rw [h2]
          have hMge : (L.length - P) * (H + 1) + r (keyAt L P) ≤ M := by
            rw [if_pos hP] at hM
            exact hM
          omega
        · -- the prefix grew
          have hb : L₂.length - P₂ < L.length - P := by omega
          have hs : (if P₂ < L₂.length then r (keyAt L₂ P₂) else 0) ≤ H := by
            by_cases h : P₂ < L₂.length
            · rw [if_pos h]
              refine hrank _ ?_
              have := keyAt_mem h
              exact ((keysOf_perm hperm₂).mem_iff).mp this
            · rw [if_neg h]
              omega
          have := measure_dec hb hs
            (t := if P < L.length then r (keyAt L P) else 0)
          omega
      obtain ⟨n, L₁, hn, hp₁, hio₁⟩ :=
        ih ((L₂.length - P₂) * (H + 1) +
            (if P₂ < L₂.length then r (keyAt L₂ P₂) else 0))
          hmeas₂ L₂ P₂ hperm₂ hpre₂' hP₂le h3₂ (le_refl _)
      refine ⟨n + 1, L₁, ?_, hp₁, hio₁⟩
      show resolveLoop (n + 1) L = .ok (some L₁)
      simp only [resolveLoop]
      rw [hop]
      exact hn
    · -- the whole dictionary is in order: one consistent pass ends the loop
      have hPeq : P = L.length := by omega
      have hall : ∀ q, q < L.length → InOrderAt L q := by
        intro q hq
        exact hpre q (by omega)
      have hop : onePass L = .ok (L, true) := pass_consistent nd₀ hr hperm hall
      refine ⟨1, L, ?_, hperm, hall⟩
      show resolveLoop 1 L = .ok (some L)
      simp only [resolveLoop]
      rw [hop]

/-! #### The dictionary built by the solver (lines 61-67) -/

theorem keysOf_build (latent : List String) (hyper : String → List String) :
    keysOf (buildDependencyDict latent hyper) = latent := by
  unfold keysOf buildDependencyDict
  rw [List.map_map]
  have h : (Prod.fst ∘ fun p => (p, (hyper p).filter (fun q => q ∈ latent)))
      = id := rfl
  rw [h, List.map_id]

theorem depsOf_build {latent : List String} (hnd : latent.Nodup)
    (hyper : String → List String) {p : String} (hp : p ∈ latent) :
    depsOf (buildDependencyDict latent hyper) p =
      (hyper p).filter (fun q => q ∈ latent) := by
  have hnd' : (keysOf (buildDependencyDict latent hyper)).Nodup := by
    rw [keysOf_build]
    exact hnd
  have hmem : (p, (hyper p).filter (fun q => q ∈ latent))
      ∈ buildDependencyDict latent hyper :=
    List.mem_map_of_mem _ hp
  exact depsOf_eq_of_mem hnd' hmem

theorem depsOf_build_nil {latent : List String} (hyper : String → List String)
    {p : String} (hp : p ∉ latent) :
    depsOf (buildDependencyDict latent hyper) p = [] := by
  unfold depsOf
  have hf : (buildDependencyDict latent hyper).find? (fun e => e.1 = p) = none := by
    rw [List.find?_eq_none]
    intro e he
    unfold buildDependencyDict at he
    rcases List.mem_map.mp he with ⟨q, hq, rfl⟩
    simp only [decide_eq_true_eq]
    intro hqp
    exact hp (hqp ▸ hq)
  rw [hf]

theorem wf_build (latent : List String) (hyper : String → List String)
    (hnd : latent.Nodup) :
    ∀ k d, d ∈ depsOf (buildDependencyDict latent hyper) k →
      d ∈ keysOf (buildDependencyDict latent hyper) := by
  intro k d hd
  rw [keysOf_build]
  by_cases hk : k ∈ latent
  · rw [depsOf_build hnd hyper hk] at hd
    exact of_decide_eq_true (List.mem_filter.mp hd).2
  · rw [depsOf_build_nil hyper hk] at hd
    cases hd

/-! #### Error and success behaviour of the whole loop -/

theorem resolveLoop_err {L₀ : DepMap} (nd₀ : (keysOf L₀).Nodup)
    (wf₀ : ∀ k d, d ∈ depsOf L₀ k → d ∈ keysOf L₀) :
    ∀ {n : Nat} {L : DepMap} {k d : String}, List.Perm L L₀ →
      resolveLoop n L = .error (k, d) →
      d ∈ depsOf L₀ k ∧ k ∈ depsOf L₀ d := by
  intro n
  induction n with
  | zero =>
    intro L k d _ h
    exact absurd h (by simp [resolveLoop])
  | succ n ih =>
    intro L k d hperm h
    simp only [resolveLoop] at h
    cases hop : onePass L with
    | error e =>
      rw [hop] at h
      obtain ⟨k', d'⟩ := e
      simp only [Except.error.injEq, Prod.mk.injEq] at h
      obtain ⟨rfl, rfl⟩ := h
      exact procIdxs_err nd₀ wf₀ hperm hop
    | ok p =>
      obtain ⟨L₂, c₂⟩ := p
      rw [hop] at h
      cases c₂ with
      | true => exact absurd h (by simp)
      | false =>
        obtain ⟨p1, _, _⟩ := procIdxs_ok nd₀ wf₀ hperm hop
        exact ih p1 h

theorem resolveLoop_success {L₀ : DepMap} (nd₀ : (keysOf L₀).Nodup)
    (wf₀ : ∀ k d, d ∈ depsOf L₀ k → d ∈ keysOf L₀) :
    ∀ {n : Nat} {L L₁ : DepMap}, List.Perm L L₀ →
      resolveLoop n L = .ok (some L₁) →
      ∃ L₂, List.Perm L₂ L₀ ∧ onePass L₂ = .ok (L₁, true) := by
  intro n
  induction n with
  | zero =>
    intro L L₁ _ h
    exact absurd h (by simp [resolveLoop])
  | succ n ih =>
    intro L L₁ hperm h
    simp only [resolveLoop] at h
    cases hop : onePass L with
    | error e =>
      rw [hop] at h
      exact absurd h (by simp)
    | ok p =>
      obtain ⟨L₂, c₂⟩ := p
      rw [hop] at h
      cases c₂ with
      | true =>
        simp only [Except.ok.injEq, Option.some.injEq] at h
        exact ⟨L, hperm, h ▸ hop⟩
      | false =>
        obtain ⟨p1, _, _⟩ := procIdxs_ok nd₀ wf₀ hperm hop
        exact ih p1 h

/-- C1: For every acyclic dependency map from latent parameters to the latent
hyperparameters of their priors (acyclicity witnessed by a rank function `r`
that drops along every dependency edge), the resolution loop in
`run_pyro_solver` terminates and produces an ordering of the latent parameter
names in which every latent hyperparameter referenced by a parameter's prior
appears strictly earlier than that parameter. -/
theorem resolution_loop_terminates_topologically
    (latent : List String) (hyper : String → List String) (r : String → ℕ)
    (hnd : latent.Nodup)
    (hr : ∀ k ∈ latent, ∀ d ∈ depsOf (buildDependencyDict latent hyper) k,
      r d < r k) :
    ∃ n L₁, resolveLoop n (buildDependencyDict latent hyper) = .ok (some L₁) ∧
      List.Perm (keysOf L₁) latent ∧
      ∀ k d, k ∈ keysOf L₁ → d ∈ depsOf L₁ k →
        idxOfKey L₁ d < idxOfKey L₁ k := by
  set L₀ := buildDependencyDict latent hyper with hL₀
  have nd₀ : (keysOf L₀).Nodup := by
    rw [hL₀, keysOf_build]
    exact hnd
  have wf₀ : ∀ k d, d ∈ depsOf L₀ k → d ∈ keysOf L₀ := wf_build latent hyper hnd
  have hr' : ∀ k d, d ∈ depsOf L₀ k → r d < r k := by
    intro k d hd
    by_cases hk : k ∈ latent
    · exact hr k hk d hd
    · rw [hL₀, depsOf_build_nil hyper hk] at hd
      cases hd
  set P := extendPref L₀ 0 with hPdef
  have hPle : P ≤ L₀.length := extendPref_le L₀ 0 (Nat.zero_le _)
  have hpre : ∀ q, q < P → InOrderAt L₀ q := by
    intro q hq
    exact extendPref_inOrder L₀ 0 q (Nat.zero_le _) hq
  have h3 : P = L₀.length ∨ ¬ InOrderAt L₀ P := by
    rcases Nat.eq_or_lt_of_le hPle with h | h
    · exact Or.inl h
    · exact Or.inr (extendPref_bad L₀ 0 h)
  obtain ⟨n, L₁, hres, hperm₁, hio⟩ :=
    resolve_measure nd₀ wf₀ hr' _ L₀ P (List.Perm.refl L₀) hpre hPle h3
      (le_refl _)
  refine ⟨n, L₁, hres, ?_, ?_⟩
  · have := keysOf_perm hperm₁
    rw [hL₀, keysOf_build] at this
    exact this
  · intro k d hk hd
    have hnd₁ : (keysOf L₁).Nodup := ((keysOf_perm hperm₁).symm).nodup nd₀
    have hq : idxOfKey L₁ k < L₁.length := (idxOfKey_lt_length_iff L₁ k).mpr hk
    have hkey : keyAt L₁ (idxOfKey L₁ k) = k := keyAt_idxOfKey hk
    have := hio (idxOfKey L₁ k) hq
    unfold InOrderAt at this
    rw [hkey] at this
    exact this d hd

theorem resolution_loop_terminates_topologically_witness :
    ∃ n L₁,
      resolveLoop n
        (buildDependencyDict ["a", "b"] (fun s => if s = "a" then ["b"] else []))
        = .ok (some L₁) ∧
      List.Perm (keysOf L₁) ["a", "b"] ∧
      ∀ k d, k ∈ keysOf L₁ → d ∈ depsOf L₁ k →
        idxOfKey L₁ d < idxOfKey L₁ k :=
  resolution_loop_terminates_topologically ["a", "b"]
    (fun s => if s = "a" then ["b"] else [])
    (fun s => if s = "a" then 1 else 0) (by decide) (by decide)

/-- C4 (amended): for every dependency map containing a direct two-parameter
cycle, the resolution loop never completes successfully — every run either
raises the circular-dependency error, which always names two parameters whose
dependency lists contain each other, or keeps looping; a consistent ordering
(and hence sampling) is never reached. -/
theorem resolution_loop_cycle_never_succeeds
    (latent : List String) (hyper : String → List String) (A B : String)
    (hnd : latent.Nodup) (hAB : A ≠ B)
    (hBA : B ∈ depsOf (buildDependencyDict latent hyper) A)
    (hAB2 : A ∈ depsOf (buildDependencyDict latent hyper) B) :
    (∀ n L₁, resolveLoop n (buildDependencyDict latent hyper) ≠ .ok (some L₁)) ∧
    (∀ n k d, resolveLoop n (buildDependencyDict latent hyper) = .error (k, d) →
      d ∈ depsOf (buildDependencyDict latent hyper) k ∧
      k ∈ depsOf (buildDependencyDict latent hyper) d) := by
  set L₀ := buildDependencyDict latent hyper with hL₀
  have nd₀ : (keysOf L₀).Nodup := by
    rw [hL₀, keysOf_build]
    exact hnd
  have wf₀ : ∀ k d, d ∈ depsOf L₀ k → d ∈ keysOf L₀ := wf_build latent hyper hnd
  constructor
  · intro n L₁ h
    obtain ⟨L₂, hperm₂, hop⟩ :=
      resolveLoop_success nd₀ wf₀ (List.Perm.refl L₀) h
    unfold onePass at hop
    obtain ⟨hL₁, _, hbound⟩ := procIdxs_success hop
    have hnd₂ : (keysOf L₂).Nodup := ((keysOf_perm hperm₂).symm).nodup nd₀
    have hdeps₂ : ∀ k, depsOf L₂ k = depsOf L₀ k :=
      fun k => depsOf_eq_of_perm hperm₂ hnd₂ k
    have hAmem : A ∈ keysOf L₂ :=
      ((keysOf_perm hperm₂).mem_iff).mpr (wf₀ B A hAB2)
    have hBmem : B ∈ keysOf L₂ :=
      ((keysOf_perm hperm₂).mem_iff).mpr (wf₀ A B hBA)
    have hbd : ∀ X Y : String, X ∈ keysOf L₂ → Y ∈ depsOf L₀ X →
        idxOfKey L₂ Y ≤ idxOfKey L₂ X := by
      intro X Y hX hY
      have hqX : idxOfKey L₂ X < L₂.length := (idxOfKey_lt_length_iff L₂ X).mpr hX
      have hkeyX : keyAt L₂ (idxOfKey L₂ X) = X := keyAt_idxOfKey hX
      have hne : depsOf L₂ (keyAt L₂ (idxOfKey L₂ X)) ≠ [] := by
        rw [hkeyX, hdeps₂]
        intro hnil
        rw [hnil] at hY
        cases hY
      have hmem : idxOfKey L₂ X ∈ nonEmptyIdxs L₂ :=
        mem_nonEmptyIdxs hnd₂ hqX hne
      have := hbound (idxOfKey L₂ X) hmem Y
        (by rw [← keyAt_def, hkeyX, hdeps₂]; exact hY)
      exact this
    have h1 : idxOfKey L₂ B ≤ idxOfKey L₂ A := hbd A B hAmem hBA
    have h2 : idxOfKey L₂ A ≤ idxOfKey L₂ B := hbd B A hBmem hAB2
    have heq : idxOfKey L₂ A = idxOfKey L₂ B := by omega
    have : A = B := by
      rw [← keyAt_idxOfKey hAmem, ← keyAt_idxOfKey hBmem, heq]
    exact hAB this
  · intro n k d h
    exact resolveLoop_err nd₀ wf₀ (List.Perm.refl L₀) h

theorem resolution_loop_cycle_never_succeeds_witness :
    (∀ n L₁,
      resolveLoop n
        (buildDependencyDict ["a", "b"]
          (fun s => if s = "a" then ["b"] else if s = "b" then ["a"] else []))
        ≠ .ok (some L₁)) ∧
    (∀ n k d,
      resolveLoop n
        (buildDependencyDict ["a", "b"]
          (fun s => if s = "a" then ["b"] else if s = "b" then ["a"] else []))
        = .error (k, d) →
      d ∈ depsOf (buildDependencyDict ["a", "b"]
          (fun s => if s = "a" then ["b"] else if s = "b" then ["a"] else [])) k ∧
      k ∈ depsOf (buildDependencyDict ["a", "b"]
          (fun s => if s = "a" then ["b"] else if s = "b" then ["a"] else [])) d) :=
  resolution_loop_cycle_never_succeeds ["a", "b"]
    (fun s => if s = "a" then ["b"] else if s = "b" then ["a"] else [])
    "a" "b" (by decide) (by decide) (by decide) (by decide)

/-! #### A dependency map with a direct two-parameter cycle on which the
resolution loop never raises: the scan keeps reordering other entries in a
four-pass cycle, so the circular-dependency check never fires and the loop
never terminates.  The pair is `d`/`D`: `d`'s dependency list contains `D`
and `D`'s contains `d`. -/

/-- Latent parameters of the non-terminating counterexample. -/
def ctrLatent : List String := ["a", "c", "d", "e", "g", "A", "C", "D", "E", "G"]

/-- Latent prior hyperparameters of the counterexample: `d` and `D` reference
each other; the remaining entries form two interlocking reorder engines that
keep displacing `d` and `D` from every scanned position. -/
def ctrHyper : String → List String := fun s =>
  if s = "a" then ["e"]
  else if s = "c" then ["d", "g"]
  else if s = "d" then ["D"]
  else if s = "e" then ["c"]
  else if s = "g" then ["d", "a"]
  else if s = "A" then ["E"]
  else if s = "C" then ["D", "G"]
  else if s = "D" then ["d"]
  else if s = "E" then ["C"]
  else if s = "G" then ["D", "A"]
  else []

/-- The dictionary the solver builds for the counterexample. -/
def ctrMap : DepMap := buildDependencyDict ctrLatent ctrHyper

/-- State of the dictionary after one pass on the counterexample. -/
def ctrS1 : DepMap :=
  [("e", ["c"]), ("g", ["d", "a"]), ("d", ["D"]), ("a", ["e"]), ("c", ["d", "g"]),
   ("E", ["C"]), ("G", ["D", "A"]), ("D", ["d"]), ("A", ["E"]), ("C", ["D", "G"])]

/-- State of the dictionary after two passes on the counterexample. -/
def ctrS2 : DepMap :=
  [("c", ["d", "g"]), ("a", ["e"]), ("d", ["D"]), ("g", ["d", "a"]), ("e", ["c"]),
   ("C", ["D", "G"]), ("A", ["E"]), ("D", ["d"]), ("G", ["D", "A"]), ("E", ["C"])]

/-- State of the dictionary after three passes on the counterexample. -/
def ctrS3 : DepMap :=
  [("g", ["d", "a"]), ("e", ["c"]), ("d", ["D"]), ("c", ["d", "g"]), ("a", ["e"]),
   ("G", ["D", "A"]), ("E", ["C"]), ("D", ["d"]), ("C", ["D", "G"]), ("A", ["E"])]

theorem ctr_pass0 : onePass ctrMap = .ok (ctrS1, false) := by rfl

theorem ctr_pass1 : onePass ctrS1 = .ok (ctrS2, false) := by rfl

theorem ctr_pass2 : onePass ctrS2 = .ok (ctrS3, false) := by rfl

theorem ctr_pass3 : onePass ctrS3 = .ok (ctrMap, false) := by rfl

theorem ctr_orbit : ∀ n : Nat,
    resolveLoop n ctrMap = .ok none ∧ resolveLoop n ctrS1 = .ok none ∧
    resolveLoop n ctrS2 = .ok none ∧ resolveLoop n ctrS3 = .ok none := by
  intro n
  induction n with
  | zero => exact ⟨rfl, rfl, rfl, rfl⟩
  | succ n ih =>
    refine ⟨?_, ?_, ?_, ?_⟩
    · show resolveLoop (n + 1) ctrMap = .ok none
      simp only [resolveLoop]
      rw [ctr_pass0]
      exact ih.2.1
    · show resolveLoop (n + 1) ctrS1 = .ok none
      simp only [resolveLoop]
      rw [ctr_pass1]
      exact ih.2.2.1
    · show resolveLoop (n + 1) ctrS2 = .ok none
      simp only [resolveLoop]
      rw [ctr_pass2]
      exact ih.2.2.2
    · show resolveLoop (n + 1) ctrS3 = .ok none
      simp only [resolveLoop]
      rw [ctr_pass3]
      exact ih.1

/-- C4 (counterexample): a dependency map that contains a direct two-parameter
cycle (`d`'s list contains `D` and `D`'s contains `d`) on which the resolution
loop of `run_pyro_solver` never raises the circular-dependency error and never
terminates: for every amount of fuel it is still looping, so the claim that
resolution always fails with the error on such maps is false.  (Verified
against CPython 3: the loop cycles through four dictionary orders forever.) -/
theorem resolution_loop_cycle_not_detected :
    ("D" ∈ depsOf ctrMap "d" ∧ "d" ∈ depsOf ctrMap "D") ∧
    ∀ n, resolveLoop n ctrMap = .ok none :=
  ⟨⟨by decide, by decide⟩, fun n => (ctr_orbit n).1⟩

/-! ### Numeric values

A numpy value in this code base is a scalar or a one-dimensional array;
machine reals are modelled by exact rationals. -/

/-- A numpy scalar or 1-d array. -/
inductive NumVal where
  | scalar (x : ℚ)
  | arr (xs : List ℚ)
deriving DecidableEq

/-- `len_or_one` from `probeye.subroutines`: `len(v)` when `v` has a length,
else `1`. -/
def len_or_one : NumVal → Nat
  | .scalar _ => 1
  | .arr xs => xs.length

/-- The numbers held by a value, in order. -/
def NumVal.toList : NumVal → List ℚ
  | .scalar x => [x]
  | .arr xs => xs

/-- `n3 = max([len_or_one(v) for v in [*inp.values()]])`
(forward_model line 215; Python's `max` raises on an empty input dictionary,
which is modelled as `0`). -/
def maxElems (inp : List (String × NumVal)) : Nat :=
  (inp.map (fun e => len_or_one e.2)).foldr max 0

/-! ### The bridge's output flattening and its inverse (C2)

`Autograd.forward` (solver lines 170-190) flattens the response dictionary
into one long vector of length `n1 * n3`, writing output sensor `i` at offset
`i * n3`, and records `response_structure` (element count per output sensor);
`ForwardModelBase.__call__` (forward_model lines 100-114) uses
`response_structure` to cut the vector back into a dictionary, reading the
sensors contiguously. -/

/-- numpy slice assignment `v[i:j] = w` (indices already in range in the
embedded code path): the segment is replaced when lengths match, a length-one
right-hand side broadcasts, anything else raises (modelled as `none`). -/
def sliceAssign (v : List ℚ) (i j : Nat) (w : List ℚ) : List ℚ ⊕ Unit :=
  let iC := min i v.length
  let jC := min (max j iC) v.length
  if w.length = jC - iC then .inl (v.take iC ++ w ++ v.drop jC)
  else
    match w with
    | [x] => .inl (v.take iC ++ List.replicate (jC - iC) x ++ v.drop jC)
    | _ => .inr ()

/-- The write loop of `Autograd.forward` (solver lines 176-181):
`response_numpy[idx_start:idx_end] = value` for each output sensor `i`,
with `idx_start = i * n3` and `idx_end = idx_start + n_elements`. -/
def flattenLoop (n3 : Nat) : List (Nat × (String × NumVal)) → List ℚ →
    Option (List ℚ)
  | [], v => some v
  | (i, e) :: rest, v =>
    match sliceAssign v (i * n3) (i * n3 + len_or_one e.2) e.2.toList with
    | .inl v₁ => flattenLoop n3 rest v₁
    | .inr _ => none

/-- `response_structure[key] = n_elements` collected over the response
dictionary (solver lines 175-182). -/
def responseStructureOf (resp : List (String × NumVal)) : List (String × Nat) :=
  resp.map (fun e => (e.1, len_or_one e.2))

/-- The flattening of `Autograd.forward`: `response_numpy = np.zeros(n1 * n3)`
followed by the write loop, where `n1` and `n3` are the first and third
components of `jac_numpy.shape` — the number of output sensors and the
maximum element count over the input channels. -/
def bridgeFlatten (n1 n3 : Nat) (resp : List (String × NumVal)) :
    Option (List ℚ) :=
  flattenLoop n3 resp.enum (List.replicate (n1 * n3) 0)

/-- The reconstruction loop of `ForwardModelBase.__call__` (lines 108-113):
`res[key] = res_ori[i:i + n_numbers]; i += n_numbers` over the keys of
`response_structure`, reading the flattened vector contiguously. -/
def reconstructLoop : List (String × Nat) → List ℚ → Nat →
    List (String × List ℚ)
  | [], _, _ => []
  | (key, n) :: rest, v, i => (key, (v.drop i).take n) :: reconstructLoop rest v (i + n)

/-- `ForwardModelBase.__call__` on a numeric vector: rebuild the response
dictionary from `response_structure`. -/
def callReconstruct (rs : List (String × Nat)) (v : List ℚ) :
    List (String × List ℚ) :=
  reconstructLoop rs v 0

/-- C2: the bridge's round trip is broken.  For the forward model with one
input channel of two elements (so `n3 = 2`) and two scalar output sensors
with values `1` and `2`, the flattening writes `[1, 0, 2, 0]` (stride `n3`),
but the contiguous reconstruction returns `{y1: [1], y2: [0]}` — the second
sensor's value is lost, contradicting the documented purpose of
`response_structure` (forward_model lines 49-56, 90-114) and the spec's exact
round-trip property. -/
theorem bridge_roundtrip_broken :
    bridgeFlatten 2 (maxElems [("x", NumVal.arr [0, 1])])
        [("y1", NumVal.arr [1]), ("y2", NumVal.arr [2])] = some [1, 0, 2, 0] ∧
    callReconstruct
        (responseStructureOf [("y1", NumVal.arr [1]), ("y2", NumVal.arr [2])])
        [1, 0, 2, 0]
      = [("y1", [1]), ("y2", [0])] ∧
    [("y1", [(1 : ℚ)]), ("y2", [0])] ≠ [("y1", [1]), ("y2", [2])] := by
  refine ⟨by decide, by decide, by decide⟩

/-! ### The bridge's backward pass (C3)

`Autograd.backward` (solver lines 192-265): reshape the incoming flattened
gradient to `(n1, 1, n3)`, transpose the cached Jacobian over its last two
axes, batch-matrix-multiply, sum over the sensor axis, flatten, and emit
`None` for inputs that do not require gradients. -/

theorem index_flatten_lt {n1 n3 s e : Nat} (hs : s < n1) (he : e < n3) :
    s * n3 + e < n1 * n3 := by
  have h1 : s * n3 + e < (s + 1) * n3 := by
    have : (s + 1) * n3 = s * n3 + n3 := by ring
    omega
  have h2 : (s + 1) * n3 ≤ n1 * n3 := Nat.mul_le_mul_right _ (by omega)
  omega

/-- `dl_dy = th.reshape(dl_dy_tuple[0], (shape[0], 1, shape[2]))`
(solver line 238), with the singleton middle axis elided: row-major index
arithmetic. -/
def reshapeGrad (n1 n3 : Nat) (v : Fin (n1 * n3) → ℚ) :
    Fin n1 → Fin n3 → ℚ :=
  fun s e => v ⟨s.val * n3 + e.val, index_flatten_lt s.isLt e.isLt⟩

/-- `dy_dtheta_transposed = th.transpose(dy_dtheta, 1, 2)` (solver line 243). -/
def transpose12 {n1 n2 n3 : Nat} (J : Fin n1 → Fin n2 → Fin n3 → ℚ) :
    Fin n1 → Fin n3 → Fin n2 → ℚ :=
  fun s e i => J s i e

/-- `grad_total = th.matmul(dl_dy, dy_dtheta_transposed)` (solver line 244):
batched matrix product of `(n1, 1, n3)` with `(n1, n3, n2)`, the singleton
row axis elided. -/
def matmulBatched {n1 n2 n3 : Nat} (dl : Fin n1 → Fin n3 → ℚ)
    (Jt : Fin n1 → Fin n3 → Fin n2 → ℚ) : Fin n1 → Fin n2 → ℚ :=
  fun s i => ∑ e : Fin n3, dl s e * Jt s e i

/-- `grad_total = th.sum(grad_total, dim=0)` (solver line 253). -/
def sumSensors {n1 n2 : Nat} (g : Fin n1 → Fin n2 → ℚ) : Fin n2 → ℚ :=
  fun i => ∑ s : Fin n1, g s i

/-- `Autograd.backward` (solver lines 192-265): the cached Jacobian tensor `J`
has shape `(n1, n2, n3)` (sensors, inputs, elements); the incoming gradient is
over the flattened output; the result pairs `th.flatten(grad_total)` with
`ctx.needs_input_grad`, emitting `None` for inputs that do not require
gradients. -/
def autogradBackward (n1 n2 n3 : Nat) (J : Fin n1 → Fin n2 → Fin n3 → ℚ)
    (dl_dy : Fin (n1 * n3) → ℚ) (needs : Fin n2 → Bool) : Fin n2 → Option ℚ :=
  let dl := reshapeGrad n1 n3 dl_dy
  let g := sumSensors (matmulBatched dl (transpose12 J))
  fun i => if needs i then some (g i) else none

/-- C3: for every cached Jacobian tensor `J` of shape (sensors, inputs,
elements) and every incoming gradient over the flattened output, the bridge's
backward pass returns, for input `i`, the chain-rule total derivative
`∑ s ∑ e dl/dy[s,e] * J[s,i,e]` whenever input `i` requires a gradient, and
the explicit no-gradient marker `None` (not zero) otherwise. -/
theorem autograd_backward_chain_rule (n1 n2 n3 : Nat)
    (J : Fin n1 → Fin n2 → Fin n3 → ℚ) (dl_dy : Fin (n1 * n3) → ℚ)
    (needs : Fin n2 → Bool) (i : Fin n2) :
    autogradBackward n1 n2 n3 J dl_dy needs i =
      if needs i = true then
        some (∑ s : Fin n1, ∑ e : Fin n3,
          dl_dy ⟨s.val * n3 + e.val, index_flatten_lt s.isLt e.isLt⟩ * J s i e)
      else none := rfl

/-! ### The finite-difference step size (C5) -/

/-- C5 (counterexample): at the input value `x = -1` the step
`h = np.sqrt(eps) * x + np.sqrt(eps)` computed by `ForwardModelBase.jacobian`
is exactly zero (also in IEEE float arithmetic, where `s * (-1.0) + s`
cancels exactly), so the central-difference quotient divides by zero there:
the guard does not hold for every input value. -/
theorem fdStep_zero_at_neg_one : fdStep (-1) = 0 := by
  unfold fdStep
  ring

/-- C5 (amended): the step `h = np.sqrt(eps) * x + np.sqrt(eps)` is nonzero
for every input value `x ≠ -1`; at `x = -1` it is exactly zero. -/
theorem fdStep_ne_zero (x : ℚ) (hx : x ≠ -1) : fdStep x ≠ 0 := by
  unfold fdStep
  have h1 : sqrtEps32 * x + sqrtEps32 = sqrtEps32 * (x + 1) := by ring
  rw [h1]
  refine mul_ne_zero (ne_of_gt sqrtEps32_pos) ?_
  intro h
  apply hx
  linarith

theorem fdStep_ne_zero_witness : (3 : ℚ) ≠ -1 ∧ fdStep 3 ≠ 0 :=
  ⟨by norm_num, fdStep_ne_zero 3 (by norm_num)⟩

/-! ### `ForwardModelBase.jacobian_dict_to_array` (C6)

Lines 184-220: `n1` output sensors, `n2` input channels, `n3` the maximum
element count over the input channels; `jac = np.zeros((n1, n2, n3))` and
then `jac[i, j, :] = derivative` for every entry of the jacobian dictionary
(a full-slice assignment into a row of length `n3`). -/

/-- numpy `jac[i, j, :] = derivative`: the row value.  An exact-length vector
is copied, a single number (scalar or length-one array) broadcasts to every
one of the `n3` positions, anything else is a broadcast error (`none`). -/
def sliceAssignFull (n3 : Nat) : NumVal → Option (List ℚ)
  | .scalar x => some (List.replicate n3 x)
  | .arr xs =>
    if xs.length = n3 then some xs
    else
      match xs with
      | [x] => some (List.replicate n3 x)
      | _ => none

/-- `np.zeros((n1, n2, n3))`. -/
def zeros3 (n1 n2 n3 : Nat) : List (List (List ℚ)) :=
  List.replicate n1 (List.replicate n2 (List.replicate n3 0))

/-- Store a full row at index `(i, j)` of the three-axis array (out-of-range
indices are a numpy `IndexError`, modelled as `none`). -/
def setCell (A : List (List (List ℚ))) (i j : Nat) (row : List ℚ) :
    Option (List (List (List ℚ))) :=
  match A.get? i with
  | none => none
  | some Ai => if j < Ai.length then some (A.set i (Ai.set j row)) else none

/-- The inner loop `for j, derivative in enumerate([*prm_dict.values()])`
(forward_model lines 217-219), with `j` counting from the given start. -/
def innerAssign (n3 i : Nat) :
    Nat → List (String × NumVal) → List (List (List ℚ)) →
      Option (List (List (List ℚ)))
  | _, [], A => some A
  | j, c :: rest, A =>
    match sliceAssignFull n3 c.2 with
    | none => none
    | some row =>
      match setCell A i j row with
      | none => none
      | some A₁ => innerAssign n3 i (j + 1) rest A₁

/-- The outer loop `for i, prm_dict in enumerate([*jac_dict.values()])`. -/
def outerAssign (n3 : Nat) :
    Nat → List (List (String × NumVal)) → List (List (List ℚ)) →
      Option (List (List (List ℚ)))
  | _, [], A => some A
  | i, prmd :: rest, A =>
    match innerAssign n3 i 0 prmd A with
    | none => none
    | some A₁ => outerAssign n3 (i + 1) rest A₁

/-- `ForwardModelBase.jacobian_dict_to_array` (lines 184-220). -/
def jacobian_dict_to_array (output_sensors : List String)
    (inp : List (String × NumVal))
    (jac_dict : List (String × List (String × NumVal))) :
    Option (List (List (List ℚ))) :=
  outerAssign (maxElems inp) 0 (jac_dict.map Prod.snd)
    (zeros3 output_sensors.length inp.length (maxElems inp))

/-- C6 (counterexample): with one scalar output sensor `y`, an input channel
`x` of two elements and a scalar parameter `a` (so `n3 = 2`), the derivative
row of the one-element channel `a` is `[5, 5]` — the full-slice assignment
broadcasts the scalar to every position — and not the zero-padded `[5, 0]`
the claim describes. -/
theorem jacobian_dict_to_array_not_zero_padded :
    jacobian_dict_to_array ["y"] [("x", NumVal.arr [0, 1]), ("a", NumVal.scalar 3)]
        [("y", [("x", NumVal.scalar 7), ("a", NumVal.scalar 5)])]
      = some [[[7, 7], [5, 5]]] ∧
    ([[[7, 7], [5, 5]]] : List (List (List ℚ)))
      ≠ [[[7, 7], [5, 0]]] := by
  refine ⟨by decide, by decide⟩

theorem innerAssign_spec {n3 i : Nat} :
    ∀ (cols : List (String × NumVal)) (j : Nat) (A : List (List (List ℚ)))
      (Ai : List (List ℚ)), A.get? i = some Ai → j + cols.length ≤ Ai.length →
      (∀ c ∈ cols, (sliceAssignFull n3 c.2).isSome) →
      ∃ A₁, innerAssign n3 i j cols A = some A₁ ∧ A₁.length = A.length ∧
        (∀ q, q ≠ i → A₁.get? q = A.get? q) ∧
        ∃ Ai₁, A₁.get? i = some Ai₁ ∧ Ai₁.length = Ai.length ∧
          (∀ p, p < j → Ai₁.get? p = Ai.get? p) ∧
          (∀ t c, cols.get? t = some c →
            Ai₁.get? (j + t) = some ((sliceAssignFull n3 c.2).getD [])) := by
  intro cols
  induction cols with
  | nil =>
    intro j A Ai hA _ _
    exact ⟨A, rfl, rfl, fun _ _ => rfl, Ai, hA, rfl, fun _ _ => rfl,
      fun t c hc => by cases hc⟩
  | cons c rest ih =>
    intro j A Ai hA hlen hvals
    have hc := hvals c (by simp)
    rcases hrow : sliceAssignFull n3 c.2 with _ | row
    · rw [hrow] at hc
      cases hc
    · have hi : i < A.length := by
        by_contra hcon
        rw [List.get?_eq_none.mpr (Nat.le_of_not_lt hcon)] at hA
        cases hA
      have hj : j < Ai.length := by
        simp only [List.length_cons] at hlen
        omega
      have hset : setCell A i j row = some (A.set i (Ai.set j row)) := by
        unfold setCell
        rw [hA]
        dsimp only
        rw [if_pos hj]
      have hA' : (A.set i (Ai.set j row)).get? i = some (Ai.set j row) := by
        simp only [List.get?_eq_getElem?]
        rw [List.getElem?_set_self (by simpa using hi)]
      have hlen' : (j + 1) + rest.length ≤ (Ai.set j row).length := by
        simp only [List.length_set]
        simp only [List.length_cons] at hlen
        omega
      obtain ⟨A₁, h1, hlen₁, h2, Ai₁, h3, h4, hpre, h5⟩ :=
        ih (j + 1) (A.set i (Ai.set j row)) (Ai.set j row) hA' hlen'
          (fun x hx => hvals x (by simp [hx]))
      refine ⟨A₁, ?_, by simpa using hlen₁, ?_, Ai₁, h3, by simpa using h4, ?_, ?_⟩
      · unfold innerAssign
        rw [hrow]
        dsimp only
        rw [hset]
        exact h1
      · intro q hq
        rw [h2 q hq]
        simp only [List.get?_eq_getElem?]
        rw [List.getElem?_set_ne (Ne.symm hq)]
      · intro p hp
        rw [hpre p (by omega)]
        simp only [List.get?_eq_getElem?]
        rw [List.getElem?_set_ne (by omega)]
      · intro t x hx
        cases t with
        | zero =>
          simp only [List.get?_eq_getElem?] at hx
          simp only [List.getElem?_cons_zero, Option.some.injEq] at hx
          subst hx
          have hj' : Ai₁.get? j = (Ai.set j row).get? j :=
            hpre j (by omega)
          rw [Nat.add_zero, hj']
          simp only [List.get?_eq_getElem?]
          rw [List.getElem?_set_self (by simpa using hj)]
          rw [hrow]
          rfl
        | succ t' =>
          have hx' : rest.get? t' = some x := by
            simpa using hx
          have := h5 t' x hx'
          have harith : j + 1 + t' = j + (t' + 1) := by omega
          rw [harith] at this
          exact this

theorem sliceAssignFull_length {n3 : Nat} {v : NumVal} {row : List ℚ}
    (h : sliceAssignFull n3 v = some row) : row.length = n3 := by
  cases v with
  | scalar x =>
    simp only [sliceAssignFull, Option.some.injEq] at h
    rw [← h]
    simp
  | arr xs =>
    simp only [sliceAssignFull] at h
    split at h
    · simp only [Option.some.injEq] at h
      rw [← h]
      assumption
    · split at h
      · simp only [Option.some.injEq] at h
        rw [← h]
        simp
      · exact Option.noConfusion h

theorem outerAssign_spec {n3 : Nat} :
    ∀ (rows : List (List (String × NumVal))) (i : Nat)
      (A : List (List (List ℚ))),
      (∀ t prmd, rows.get? t = some prmd →
        ∃ Aq, A.get? (i + t) = some Aq ∧ prmd.length ≤ Aq.length ∧
          (∀ c ∈ prmd, (sliceAssignFull n3 c.2).isSome)) →
      ∃ A₁, outerAssign n3 i rows A = some A₁ ∧ A₁.length = A.length ∧
        (∀ q, q < i → A₁.get? q = A.get? q) ∧
        (∀ t prmd, rows.get? t = some prmd →
          ∃ Aq₁, A₁.get? (i + t) = some Aq₁ ∧
            (∀ u c, prmd.get? u = some c →
              Aq₁.get? u = some ((sliceAssignFull n3 c.2).getD [])) ∧
            ∀ Aq, A.get? (i + t) = some Aq → Aq₁.length = Aq.length) := by
  intro rows
  induction rows with
  | nil =>
    intro i A _
    exact ⟨A, rfl, rfl, fun _ _ => rfl, fun t prmd hp => by cases hp⟩
  | cons prmd rest ih =>
    intro i A hhyp
    obtain ⟨Aq, hAq, hql, hqv⟩ := hhyp 0 prmd rfl
    rw [Nat.add_zero] at hAq
    obtain ⟨A₂, h1, hlen₂, h2, Ai₁, h3, h4, _, h5⟩ :=
      innerAssign_spec prmd 0 A Aq hAq (by omega) hqv
    have hhyp₂ : ∀ t prmd₂, rest.get? t = some prmd₂ →
        ∃ Aq₂, A₂.get? (i + 1 + t) = some Aq₂ ∧ prmd₂.length ≤ Aq₂.length ∧
          (∀ c ∈ prmd₂, (sliceAssignFull n3 c.2).isSome) := by
      intro t prmd₂ hp
      obtain ⟨Aq₂, hq1, hq2, hq3⟩ := hhyp (t + 1) prmd₂ (by simpa using hp)
      refine ⟨Aq₂, ?_, hq2, hq3⟩
      rw [h2 (i + 1 + t) (by omega)]
      have : i + (t + 1) = i + 1 + t := by omega
      rw [← this]
      exact hq1
    obtain ⟨A₁, g1, glen, g2, g3⟩ := ih (i + 1) A₂ hhyp₂
    refine ⟨A₁, ?_, by rw [glen, hlen₂], ?_, ?_⟩
    · unfold outerAssign
      rw [h1]
      exact g1
    · intro q hq
      rw [g2 q (by omega), h2 q (by omega)]
    · intro t prmd₃ hp
      cases t with
      | zero =>
        simp only [List.get?_eq_getElem?, List.getElem?_cons_zero,
          Option.some.injEq] at hp
        subst hp
        refine ⟨Ai₁, ?_, fun u c hc => by simpa using h5 u c hc, ?_⟩
        · rw [Nat.add_zero, g2 i (by omega)]
          exact h3
        · intro Aq₂ hq
          rw [Nat.add_zero, hAq] at hq
          simp only [Option.some.injEq] at hq
          rw [← hq]
          exact h4
      | succ t' =>
        have hp' : rest.get? t' = some prmd₃ := by simpa using hp
        obtain ⟨Aq₁, k1, k2, k3⟩ := g3 t' prmd₃ hp'
        have harith : i + (t' + 1) = i + 1 + t' := by omega
        refine ⟨Aq₁, by rw [harith]; exact k1, k2, ?_⟩
        intro Aq₂ hq
        apply k3
        rw [h2 (i + 1 + t') (by omega), ← harith]
        exact hq

/-- C6 (amended): for every nonempty input mapping (with an empty one the
source raises: `max` of an empty sequence at forward_model.py line 215) and
every jacobian dictionary of matching shape whose entries admit the
full-slice assignment (scalar, length-one, or exactly `n3` elements),
`jacobian_dict_to_array` returns the dense three-axis array of shape
(output sensors, input channels, maximum element count over the input
channels) in which every row is that channel's full-slice assignment: an
exact-length derivative vector is copied, and a scalar (or length-one)
derivative is broadcast to all positions — its trailing positions repeat
the derivative value rather than being zero-padded. -/
theorem jacobian_dict_to_array_shape_broadcast
    (output_sensors : List String) (inp : List (String × NumVal))
    (jac_dict : List (String × List (String × NumVal)))
    (hne : inp ≠ [])
    (hrows : jac_dict.length = output_sensors.length)
    (hcols : ∀ e ∈ jac_dict, e.2.length = inp.length)
    (hvals : ∀ e ∈ jac_dict, ∀ c ∈ e.2,
      (sliceAssignFull (maxElems inp) c.2).isSome) :
    jacobian_dict_to_array output_sensors inp jac_dict =
      some (jac_dict.map (fun e => e.2.map
        (fun c => (sliceAssignFull (maxElems inp) c.2).getD []))) ∧
    ∀ e ∈ jac_dict, ∀ c ∈ e.2,
      ((sliceAssignFull (maxElems inp) c.2).getD []).length = maxElems inp := by
  constructor
  · unfold jacobian_dict_to_array
    have hzl : (zeros3 output_sensors.length inp.length (maxElems inp)).length
        = output_sensors.length := by
      unfold zeros3
      simp
    have hhyp : ∀ t prmd, (jac_dict.map Prod.snd).get? t = some prmd →
        ∃ Aq, (zeros3 output_sensors.length inp.length (maxElems inp)).get? (0 + t)
            = some Aq ∧ prmd.length ≤ Aq.length ∧
          (∀ c ∈ prmd, (sliceAssignFull (maxElems inp) c.2).isSome) := by
      intro t prmd hp
      have ht : t < jac_dict.length := by
        have : t < (jac_dict.map Prod.snd).length := by
          by_contra hcon
          rw [List.get?_eq_none.mpr (Nat.le_of_not_lt hcon)] at hp
          cases hp
        simpa using this
      obtain ⟨e, he, hesnd⟩ : ∃ e, jac_dict.get? t = some e ∧ e.2 = prmd := by
        simp only [List.get?_eq_getElem?] at hp ⊢
        rw [List.getElem?_map] at hp
        cases hq : jac_dict[t]? with
        | none => rw [hq] at hp; cases hp
        | some e =>
          rw [hq] at hp
          have h2 : some e.2 = some prmd := hp
          exact ⟨e, rfl, Option.some.inj h2⟩
      have hemem : e ∈ jac_dict := List.get?_mem he
      refine ⟨List.replicate inp.length (List.replicate (maxElems inp) 0), ?_, ?_, ?_⟩
      · unfold zeros3
        simp only [Nat.zero_add, List.get?_eq_getElem?]
        rw [List.getElem?_replicate]
        rw [if_pos (by rw [hrows] at ht; exact ht)]
      · rw [← hesnd, hcols e hemem]
        simp
      · intro c hc
        rw [← hesnd] at hc
        exact hvals e hemem c hc
    obtain ⟨A₁, g1, glen, _, g3⟩ :=
      outerAssign_spec (jac_dict.map Prod.snd) 0
        (zeros3 output_sensors.length inp.length (maxElems inp)) hhyp
    rw [g1]
    refine congrArg some ?_
    apply List.ext_get?
    intro q
    by_cases hq : q < jac_dict.length
    · obtain ⟨e, he⟩ : ∃ e, jac_dict.get? q = some e := by
        simp only [List.get?_eq_getElem?]
        cases hx : jac_dict[q]? with
        | none =>
          rw [List.getElem?_eq_none_iff] at hx
          omega
        | some e => exact ⟨e, rfl⟩
      have hp : (jac_dict.map Prod.snd).get? q = some e.2 := by
        simp only [List.get?_eq_getElem?, List.getElem?_map]
        simp only [List.get?_eq_getElem?] at he
        rw [he]
        rfl
      obtain ⟨Aq₁, k1, k2, k3⟩ := g3 q e.2 hp
      rw [Nat.zero_add] at k1
      rw [k1]
      have hm : (jac_dict.map (fun e => e.2.map
          (fun c => (sliceAssignFull (maxElems inp) c.2).getD []))).get? q
          = some (e.2.map (fun c => (sliceAssignFull (maxElems inp) c.2).getD [])) := by
        simp only [List.get?_eq_getElem?, List.getElem?_map]
        simp only [List.get?_eq_getElem?] at he
        rw [he]
        rfl
      rw [hm]
      refine congrArg some ?_
      apply List.ext_get?
      intro u
      by_cases hu : u < e.2.length
      · obtain ⟨c, hcu⟩ : ∃ c, e.2.get? u = some c := by
          simp only [List.get?_eq_getElem?]
          cases hx : e.2[u]? with
          | none =>
            rw [List.getElem?_eq_none_iff] at hx
            omega
          | some c => exact ⟨c, rfl⟩
        rw [k2 u c hcu]
        simp only [List.get?_eq_getElem?, List.getElem?_map]
        simp only [List.get?_eq_getElem?] at hcu
        rw [hcu]
        rfl
      · have hemem : e ∈ jac_dict := List.get?_mem he
        have hAqlen : Aq₁.length = e.2.length := by
          have := k3 (List.replicate inp.length (List.replicate (maxElems inp) 0))
          rw [Nat.zero_add] at this
          have hz : (zeros3 output_sensors.length inp.length (maxElems inp)).get? q
              = some (List.replicate inp.length (List.replicate (maxElems inp) 0)) := by
            unfold zeros3
            simp only [List.get?_eq_getElem?]
            rw [List.getElem?_replicate]
            rw [if_pos (by rw [hrows] at hq; exact hq)]
          have := this hz
          rw [this]
          simp [hcols e hemem]
        rw [List.get?_eq_none.mpr (by omega),
          List.get?_eq_none.mpr (by simpa using hu)]
    · have hA₁len : A₁.length = jac_dict.length := by
        rw [glen]
        unfold zeros3
        simp [hrows]
      rw [List.get?_eq_none.mpr (by omega),
        List.get?_eq_none.mpr (by simpa using hq)]
  · intro e he c hc
    have := hvals e he c hc
    cases hx : sliceAssignFull (maxElems inp) c.2 with
    | none => rw [hx] at this; simp at this
    | some row => simpa using sliceAssignFull_length hx

theorem jacobian_dict_to_array_shape_broadcast_witness :
    (jacobian_dict_to_array ["y"]
        [("x", NumVal.arr [0, 1]), ("a", NumVal.scalar 3)]
        [("y", [("x", NumVal.scalar 7), ("a", NumVal.scalar 5)])] =
      some ([("y", [("x", NumVal.scalar 7), ("a", NumVal.scalar 5)])].map
        (fun e => e.2.map (fun c =>
          (sliceAssignFull
            (maxElems [("x", NumVal.arr [0, 1]), ("a", NumVal.scalar 3)])
            c.2).getD [])))) ∧
    ∀ e ∈ [("y", [("x", NumVal.scalar 7), ("a", NumVal.scalar 5)])], ∀ c ∈ e.2,
      ((sliceAssignFull
          (maxElems [("x", NumVal.arr [0, 1]), ("a", NumVal.scalar 3)])
          c.2).getD []).length
        = maxElems [("x", NumVal.arr [0, 1]), ("a", NumVal.scalar 3)] :=
  jacobian_dict_to_array_shape_broadcast ["y"]
    [("x", NumVal.arr [0, 1]), ("a", NumVal.scalar 3)]
    [("y", [("x", NumVal.scalar 7), ("a", NumVal.scalar 5)])]
    (by decide) (by decide) (by decide) (by decide)

/-! ### The log-likelihood closure `loglike` (solver.py, lines 300-336)

`loglike` iterates over the solver-specific noise models; for each it computes
the model response for the noise model's experiments, fetches the noise model's
parameters from `theta`, and evaluates `sample_cond_likelihood` on the pair.
The body contains no `return` statement, so the Python function returns `None`.
The embedding returns the list of evaluated contributions (the computations the
loop performs and discards) paired with the function's actual return value. -/

structure NoiseModelT where
  prms_def : List String
  experiment_names : List String
  sample_cond_likelihood : List ℚ → List ℚ → ℚ

def loglike
    (evaluate_model_response : List ℚ → List String → List ℚ)
    (get_parameters : List ℚ → List String → List ℚ)
    (noise_models : List NoiseModelT) (theta : List ℚ) :
    List ℚ × Option ℚ :=
  (noise_models.map (fun noise_model =>
    noise_model.sample_cond_likelihood
      (evaluate_model_response theta noise_model.experiment_names)
      (get_parameters theta noise_model.prms_def)), none)

/-- What the docstring of `loglike` (and the spec) promises: the evaluated
log-likelihood, the sum of all per-noise-model contributions. -/
def loglikeSpecSum
    (evaluate_model_response : List ℚ → List String → List ℚ)
    (get_parameters : List ℚ → List String → List ℚ)
    (noise_models : List NoiseModelT) (theta : List ℚ) : ℚ :=
  (noise_models.map (fun noise_model =>
    noise_model.sample_cond_likelihood
      (evaluate_model_response theta noise_model.experiment_names)
      (get_parameters theta noise_model.prms_def))).sum

/-- C7: `loglike` never returns a numeric value. For every parameter vector and
every collection of noise models the returned value is `none` (the Python body
has no return statement), even though the per-noise-model contributions are
evaluated: at a concrete configuration with one noise model whose contribution
is 2, the contribution is computed yet the returned value is `none`, not the
`some` of any sum the spec promises. -/
theorem loglike_never_returns_value :
    (∀ emr gp nms theta, (loglike emr gp nms theta).2 = none) ∧
    ((loglike (fun th _ => th) (fun th _ => th)
        [⟨["s"], ["e1"], fun r _ => r.headD 0⟩] [2]).1 = [2] ∧
      (loglike (fun th _ => th) (fun th _ => th)
        [⟨["s"], ["e1"], fun r _ => r.headD 0⟩] [2]).2 ≠
        some (loglikeSpecSum (fun th _ => th) (fun th _ => th)
          [⟨["s"], ["e1"], fun r _ => r.headD 0⟩] [2])) := by
  refine ⟨fun emr gp nms theta => rfl, rfl, ?_⟩
  intro h
  cases h

/-! ### Heap model for `run_pyro_solver`'s copy discipline (solver.py, lines 49-56
and 269-272)

Python objects live on a heap and methods mutate them in place; the embedding
makes this explicit with a store (a list of problem objects) addressed by
natural-number references. `cp.deepcopy(problem_ori)` allocates a fresh cell
holding the same value (a deep copy: `ProblemT` is a pure value, so copying the
value copies the whole reachable object graph, including the forward models and
their attributes); all later operations of the solver — the experimental-data
transform `transform_experimental_data(f=th.from_numpy)`, the in-place
`assign_experiments_to_noise_models()`, and the `setattr(..., 'call', ...)`
loop that replaces each forward model's `call` attribute — update only the
fresh cell. The two methods live outside this repository's sources, so their
effect on the copied problem is modelled abstractly: the transform maps `f`
over the experiment values, and the assignment installs noise-model experiment
lists computed by an arbitrary function of the problem; the claim is about
which heap cell they touch, not about the values they write. -/

structure FwdModelT where
  name : String
  call_wrapped : Bool
  response_structure : List (String × Nat)

structure ProblemT where
  parameters : List (String × List String)
  experiments : List (String × NumVal)
  noise_model_experiments : List (List String)
  forward_models : List FwdModelT

def emptyProblem : ProblemT := ⟨[], [], [], []⟩

/-- `problem.transform_experimental_data(f=th.from_numpy)`: maps `f` over every
experiment value of the problem (modelled abstractly; the method is not in this
repository's sources). -/
def transform_experimental_data (f : NumVal → NumVal) (p : ProblemT) : ProblemT :=
  { p with experiments := p.experiments.map (fun e => (e.1, f e.2)) }

/-- `problem.assign_experiments_to_noise_models()`: recomputes the
noise-model-to-experiments assignment in place (modelled abstractly). -/
def assign_experiments_to_noise_models
    (assign : ProblemT → List (List String)) (p : ProblemT) : ProblemT :=
  { p with noise_model_experiments := assign p }

/-- The `setattr(problem.forward_models[name], 'call', translate_forward_model ...)`
loop: every forward model of the problem gets its `call` attribute replaced by
the torch-compatible wrapper. -/
def install_call_wrappers (p : ProblemT) : ProblemT :=
  { p with forward_models :=
      p.forward_models.map (fun m => { m with call_wrapped := true }) }

/-- `problem = cp.deepcopy(problem_ori)` followed by the three mutating stages,
each applied to the copy's cell. Returns the final store and the copy's
reference. -/
def run_pyro_solver_heap (f : NumVal → NumVal)
    (assign : ProblemT → List (List String))
    (store : List ProblemT) (r_ori : Nat) : List ProblemT × Nat :=
  let r := store.length
  let store₁ := store ++ [store.getD r_ori emptyProblem]
  let store₂ := store₁.set r (transform_experimental_data f (store₁.getD r emptyProblem))
  let store₃ := store₂.set r
    (assign_experiments_to_noise_models assign (store₂.getD r emptyProblem))
  let store₄ := store₃.set r (install_call_wrappers (store₃.getD r emptyProblem))
  (store₄, r)

theorem get?_append_lt {α : Type} (l t : List α) (q : Nat) (h : q < l.length) :
    (l ++ t).get? q = l.get? q := by
  simp only [List.get?_eq_getElem?]
  rw [List.getElem?_append, if_pos h]

theorem get?_set_lt {α : Type} (l : List α) (q r : Nat) (v : α) (h : q ≠ r) :
    (l.set r v).get? q = l.get? q := by
  simp only [List.get?_eq_getElem?]
  rw [List.getElem?_set_ne (fun he => h he.symm)]

/-- C9: `run_pyro_solver` has no side effect on the original problem: every cell
of the store that existed before the call — in particular the cell holding
`problem_ori` — holds the same problem object afterwards, because the deep copy
allocates a fresh cell and all three mutating stages (experimental-data
transform, noise-model assignment, `call`-attribute replacement) write only to
that fresh cell. -/
theorem run_pyro_solver_no_side_effects (f : NumVal → NumVal)
    (assign : ProblemT → List (List String))
    (store : List ProblemT) (r_ori : Nat) (h : r_ori < store.length) :
    ((run_pyro_solver_heap f assign store r_ori).1).get? r_ori
      = store.get? r_ori ∧
    (run_pyro_solver_heap f assign store r_ori).2 ≠ r_ori := by
  have hne : r_ori ≠ store.length := by omega
  constructor
  · show ((((store ++ [store.getD r_ori emptyProblem]).set store.length _).set
        store.length _).set store.length _).get? r_ori = store.get? r_ori
    rw [get?_set_lt _ _ _ _ hne, get?_set_lt _ _ _ _ hne,
      get?_set_lt _ _ _ _ hne, get?_append_lt _ _ _ h]
  · exact fun he => hne he.symm

theorem run_pyro_solver_no_side_effects_witness :
    (0 : Nat) < ([⟨[("m", ["a"])], [("e1", NumVal.scalar 1)], [],
        [⟨"fm", false, [("y", 1)]⟩]⟩] : List ProblemT).length ∧
    (((run_pyro_solver_heap (fun v => v) (fun _ => [])
        [⟨[("m", ["a"])], [("e1", NumVal.scalar 1)], [],
          [⟨"fm", false, [("y", 1)]⟩]⟩] 0).1).get? 0
      = ([⟨[("m", ["a"])], [("e1", NumVal.scalar 1)], [],
          [⟨"fm", false, [("y", 1)]⟩]⟩] : List ProblemT).get? 0 ∧
     (run_pyro_solver_heap (fun v => v) (fun _ => [])
        [⟨[("m", ["a"])], [("e1", NumVal.scalar 1)], [],
          [⟨"fm", false, [("y", 1)]⟩]⟩] 0).2 ≠ 0) :=
  ⟨by decide,
    run_pyro_solver_no_side_effects (fun v => v) (fun _ => [])
      [⟨[("m", ["a"])], [("e1", NumVal.scalar 1)], [],
        [⟨"fm", false, [("y", 1)]⟩]⟩] 0 (by decide)⟩

/-! ### Heap model for `ForwardModelBase.jacobian` (forward_model.py, lines
125-182)

The input dictionaries also live on the heap. For each input channel the
method makes a shallow copy of `inp` twice (`cp.copy(inp)` allocates a fresh
dict cell with the same entries), rebinds the perturbed channel in each copy
(`inp_left[prm_name] = x - h` replaces the dict slot with a freshly allocated
array — every numpy arithmetic expression here. including `h` itself, builds a
new array, and no in-place array operation occurs in the method, so a
value-semantics dict cell is a faithful model), evaluates the response on both
copies, and stores the central difference. The original dict cell is never
written. -/

def NumVal.mapQ (f : ℚ → ℚ) : NumVal → NumVal
  | .scalar a => .scalar (f a)
  | .arr as => .arr (as.map f)

def NumVal.lift2 (f : ℚ → ℚ → ℚ) : NumVal → NumVal → NumVal
  | .scalar a, .scalar b => .scalar (f a b)
  | .scalar a, .arr bs => .arr (bs.map (fun b => f a b))
  | .arr as, .scalar b => .arr (as.map (fun a => f a b))
  | .arr as, .arr bs => .arr (as.zipWith f bs)

/-- `h = np.sqrt(eps) * x + np.sqrt(eps)`, elementwise over the channel value. -/
def fdStepV (x : NumVal) : NumVal := x.mapQ fdStep

/-- Dict lookup `d[k]` (the keys looked up always exist in the method). -/
def lookupD (d : List (String × NumVal)) (k : String) : Option NumVal :=
  (d.find? (fun e => e.1 = k)).map Prod.snd

/-- Dict slot rebinding `d[k] = v` for an existing key `k` (CPython keeps the
key's position). -/
def setKeyD (d : List (String × NumVal)) (k : String) (v : NumVal) :
    List (String × NumVal) :=
  d.map (fun e => if e.1 = k then (e.1, v) else e)

/-- The body of `for prm_name, prm_value in inp.items()`: allocate `inp_left`
and `inp_right` as fresh cells copying the cell at `r_inp`, rebind the
perturbed channel in each, evaluate the response on both copies, and record
for every output sensor the central difference
`(response_dict_right[os_name] - response_dict_left[os_name]) / dx`. -/
def jacobianLoop (response : List (String × NumVal) → List (String × NumVal))
    (output_sensors : List String) (r_inp : Nat) :
    List String → List (List (String × NumVal)) →
      List (List (String × NumVal)) × List (String × List (String × NumVal))
  | [], store => (store, [])
  | prm_name :: rest, store =>
    let inp := store.getD r_inp []
    let r_left := store.length
    let store₁ := store ++ [inp]
    let r_right := store₁.length
    let store₂ := store₁ ++ [inp]
    let x := (lookupD inp prm_name).getD (NumVal.scalar 0)
    let h := fdStepV x
    let store₃ := store₂.set r_left
      (setKeyD (store₂.getD r_left []) prm_name (x.lift2 (fun a b => a - b) h))
    let store₄ := store₃.set r_right
      (setKeyD (store₃.getD r_right []) prm_name (x.lift2 (fun a b => a + b) h))
    let dx := h.mapQ (fun a => 2 * a)
    let response_dict_left := response (store₄.getD r_left [])
    let response_dict_right := response (store₄.getD r_right [])
    let col := output_sensors.map (fun os_name =>
      (os_name,
        (((lookupD response_dict_right os_name).getD (NumVal.scalar 0)).lift2
            (fun a b => a - b)
            ((lookupD response_dict_left os_name).getD (NumVal.scalar 0))).lift2
          (fun a b => a / b) dx))
    let res := jacobianLoop response output_sensors r_inp rest store₄
    (res.1, (prm_name, col) :: res.2)

/-- `ForwardModelBase.jacobian` over the heap: iterate the loop body over the
input channels, then assemble `jac_dict[os_name][prm_name]` (output sensors
outermost, input channels in `inp` key order, as the pre-initialisation loop
fixes). Returns the final store and the jacobian dictionary. -/
def jacobian (response : List (String × NumVal) → List (String × NumVal))
    (output_sensors : List String)
    (store : List (List (String × NumVal))) (r_inp : Nat) :
    List (List (String × NumVal)) × List (String × List (String × NumVal)) :=
  let keys := (store.getD r_inp []).map Prod.fst
  let res := jacobianLoop response output_sensors r_inp keys store
  (res.1, output_sensors.map (fun os_name =>
    (os_name, res.2.map (fun pc =>
      (pc.1, ((lookupD pc.2 os_name).getD (NumVal.scalar 0)))))))

theorem jacobianLoop_frame (response : List (String × NumVal) → List (String × NumVal))
    (output_sensors : List String) (r_inp : Nat) :
    ∀ (keys : List String) (store : List (List (String × NumVal))) (q : Nat),
      q < store.length →
      (jacobianLoop response output_sensors r_inp keys store).1.get? q
        = store.get? q := by
  intro keys
  induction keys with
  | nil => intro store q _; rfl
  | cons prm_name rest ih =>
    intro store q hq
    show (jacobianLoop response output_sensors r_inp rest _).1.get? q = _
    set inp := store.getD r_inp [] with hinp
    have hlen₂ : ((store ++ [inp]) ++ [inp]).length = store.length + 2 := by
      simp
    have h3 : ∀ v w,
        ((((store ++ [inp]) ++ [inp]).set store.length v).set
          (store ++ [inp]).length w).get? q = store.get? q := by
      intro v w
      rw [get?_set_lt _ _ _ _ (by simp; omega), get?_set_lt _ _ _ _ (by omega)]
      rw [get?_append_lt _ _ _ (by simp; omega), get?_append_lt _ _ _ hq]
    rw [ih _ q (by
      rw [List.length_set, List.length_set, hlen₂]
      omega)]
    exact h3 _ _

/-- C10: `ForwardModelBase.jacobian` never mutates its input mapping: after the
call, the heap cell holding `inp` — and every other pre-existing cell — holds
exactly the same dictionary (same keys bound to the same values) as before,
because the left/right perturbations rebind channels only in the two fresh
shallow copies allocated per input channel. -/
theorem jacobian_preserves_input
    (response : List (String × NumVal) → List (String × NumVal))
    (output_sensors : List String)
    (store : List (List (String × NumVal))) (r_inp : Nat)
    (h : r_inp < store.length) :
    (jacobian response output_sensors store r_inp).1.get? r_inp
      = store.get? r_inp ∧
    ∀ q, q < store.length →
      (jacobian response output_sensors store r_inp).1.get? q = store.get? q := by
  refine ⟨?_, ?_⟩
  · exact jacobianLoop_frame response output_sensors r_inp _ store r_inp h
  · intro q hq
    exact jacobianLoop_frame response output_sensors r_inp _ store q hq

theorem jacobian_preserves_input_witness :
    (0 : Nat) < ([[("a", NumVal.scalar 1), ("x", NumVal.arr [0, 1])]] :
        List (List (String × NumVal))).length ∧
    ((jacobian (fun d => [("y", (lookupD d "a").getD (NumVal.scalar 0))]) ["y"]
        [[("a", NumVal.scalar 1), ("x", NumVal.arr [0, 1])]] 0).1.get? 0
      = ([[("a", NumVal.scalar 1), ("x", NumVal.arr [0, 1])]] :
          List (List (String × NumVal))).get? 0 ∧
     ∀ q, q < ([[("a", NumVal.scalar 1), ("x", NumVal.arr [0, 1])]] :
          List (List (String × NumVal))).length →
       (jacobian (fun d => [("y", (lookupD d "a").getD (NumVal.scalar 0))]) ["y"]
          [[("a", NumVal.scalar 1), ("x", NumVal.arr [0, 1])]] 0).1.get? q
         = ([[("a", NumVal.scalar 1), ("x", NumVal.arr [0, 1])]] :
            List (List (String × NumVal))).get? q) :=
  ⟨by decide,
    jacobian_preserves_input
      (fun d => [("y", (lookupD d "a").getD (NumVal.scalar 0))]) ["y"]
      [[("a", NumVal.scalar 1), ("x", NumVal.arr [0, 1])]] 0 (by decide)⟩

end Probeye
